import Mathlib

/-!
Verification development for the HiWords vocabulary-matching core.

This file gives a shallow embedding, in Lean 4, of the parts of the
HiWords code base that the specification talks about:

* `src/utils/trie.ts` — the prefix-tree multi-pattern matcher
  (`Trie.addWord`, `Trie.findAllMatches`, `isAlphaNumeric`);
* `src/core/korean-morphology-service.ts` — the compound-word analyzer
  (`analyzeCompoundWord` and its helpers) and the rule-based fallback
  analyzer (`fallbackAnalyze`), plus the error-handling skeleton of
  `analyzeDocument`;
* the `MorphologyIndexManager` (per-note morphology index and global
  base-form → surface-forms index, `indexNote` / `removeNoteIndex`);
* the cache layer of `VocabularyManager` (`rebuildCache`,
  `getDefinition`, and the asynchronous morphological cache update).

JavaScript `Map`s are modelled as association lists with `Map.set`
replacing in place / appending at the end, `Map.get` returning the
first binding; JavaScript `Set`s are modelled as duplicate-free lists
with insertion-order append.  Strings are Lean strings; character
operations (`toLowerCase`, the `[a-z0-9]/i` test, the Hangul range
test) are modelled per character.  Numeric confidences are rationals.
-/

namespace HiWords

/-! ## Association lists (JavaScript `Map`) and lists-as-sets (`Set`) -/

/-- `Map.get`: first binding for the key, if any. -/
def alGet {β : Type} : List (String × β) → String → Option β
  | [], _ => none
  | (k0, v) :: t, k => if k0 = k then some v else alGet t k

/-- `Map.set`: replace the binding in place, or append a new one. -/
def alSet {β : Type} : List (String × β) → String → β → List (String × β)
  | [], k, v => [(k, v)]
  | (k0, v0) :: t, k, v =>
      if k0 = k then (k, v) :: t else (k0, v0) :: alSet t k v

/-- `Map.delete`: remove the binding(s) for the key. -/
def alDel {β : Type} : List (String × β) → String → List (String × β)
  | [], _ => []
  | (k0, v0) :: t, k => if k0 = k then alDel t k else (k0, v0) :: alDel t k

/-- `Set.add`: append the element if it is not already present. -/
def setAdd (l : List String) (x : String) : List String :=
  if x ∈ l then l else l ++ [x]

/-- `Set.delete`: remove the element. -/
def setDel : List String → String → List String
  | [], _ => []
  | y :: t, x => if y = x then setDel t x else y :: setDel t x

/-- The keys of an association list are pairwise distinct. -/
def nodupKeys {β : Type} (l : List (String × β)) : Prop :=
  (l.map Prod.fst).Nodup

/-! ## Character-level helpers -/

/-- Embeds `isAlphaNumeric` (trie.ts 231-233): the `/[a-z0-9]/i` test. -/
def isAlphaNumeric (c : Char) : Bool :=
  (('a' ≤ c) && (c ≤ 'z')) || (('A' ≤ c) && (c ≤ 'Z')) ||
    (('0' ≤ c) && (c ≤ '9'))

/-- Per-character model of JavaScript `String.prototype.toLowerCase`. -/
def lowerChars (s : String) : List Char := s.data.map Char.toLower

/-- One character of the Hangul ranges tested by
`KoreanMorphologyService.isKoreanText`. -/
def isKoreanChar (c : Char) : Bool :=
  ((0xAC00 : UInt32) ≤ c.val && c.val ≤ 0xD7AF) ||
  ((0x1100 : UInt32) ≤ c.val && c.val ≤ 0x11FF) ||
  ((0xA960 : UInt32) ≤ c.val && c.val ≤ 0xA97F) ||
  ((0xD7B0 : UInt32) ≤ c.val && c.val ≤ 0xD7FF)

/-- Embeds `KoreanMorphologyService.isKoreanText`. -/
def isKoreanText (s : String) : Bool := s.data.any isKoreanChar

/-- JavaScript whitespace (the characters relevant to `String.trim`
on vocabulary words). -/
def isJsWhitespace (c : Char) : Bool :=
  (c == ' ') || (c == '\t') || (c == '\n') || (c == '\r')

/-- Model of `String.prototype.trim` on a character list. -/
def trimChars (l : List Char) : List Char :=
  ((l.dropWhile isJsWhitespace).reverse.dropWhile isJsWhitespace).reverse

/-- `word.toLowerCase().trim()` as used by `VocabularyManager`. -/
def normalizeWord (w : String) : String := String.mk (trimChars (lowerChars w))

/-! ## The trie (`src/utils/trie.ts`) -/

/-- Embeds `TrieNode` (trie.ts 204-216): children map, end-of-word
flag, payload, and the original-case word string. -/
inductive TrieNode (α : Type) : Type where
  | mk (children : List (Char × TrieNode α)) (isEnd : Bool)
      (payload : Option α) (word : Option String)

def TrieNode.children {α : Type} : TrieNode α → List (Char × TrieNode α)
  | ⟨c, _, _, _⟩ => c

def TrieNode.isEnd {α : Type} : TrieNode α → Bool
  | ⟨_, e, _, _⟩ => e

def TrieNode.payload {α : Type} : TrieNode α → Option α
  | ⟨_, _, p, _⟩ => p

def TrieNode.word {α : Type} : TrieNode α → Option String
  | ⟨_, _, _, w⟩ => w

/-- A freshly constructed `TrieNode`. -/
def TrieNode.empty {α : Type} : TrieNode α := ⟨[], false, none, none⟩

/-- `children.get(c)` on a node. -/
def childOf {α : Type} : TrieNode α → Char → Option (TrieNode α) :=
  fun n c => alChildGet n.children c
where
  alChildGet : List (Char × TrieNode α) → Char → Option (TrieNode α)
    | [], _ => none
    | (c0, t) :: rest, c => if c0 = c then some t else alChildGet rest c

/-- `children.set(c, t)`: replace in place or append. -/
def setChild {α : Type} : List (Char × TrieNode α) → Char → TrieNode α →
    List (Char × TrieNode α)
  | [], c, t => [(c, t)]
  | (c0, t0) :: rest, c, t =>
      if c0 = c then (c, t) :: rest else (c0, t0) :: setChild rest c t

/-- The recursive core of `Trie.addWord` (trie.ts 130-144): walk the
lower-cased characters, creating children as needed, and mark the
final node terminal with payload and original word. -/
def addWordAux {α : Type} : TrieNode α → List Char → String → α → TrieNode α
  | n, [], w, p => ⟨n.children, true, some p, some w⟩
  | n, c :: cs, w, p =>
      let child := (childOf n c).getD TrieNode.empty
      ⟨setChild n.children c (addWordAux child cs w p), n.isEnd, n.payload, n.word⟩

/-- Embeds `Trie` (trie.ts 118-199): a root node. -/
structure Trie (α : Type) : Type where
  root : TrieNode α

/-- A freshly constructed `Trie`. -/
def Trie.empty {α : Type} : Trie α := ⟨TrieNode.empty⟩

/-- Embeds `Trie.addWord` (trie.ts 130-144). -/
def addWord {α : Type} (t : Trie α) (word : String) (payload : α) : Trie α :=
  ⟨addWordAux t.root (lowerChars word) word payload⟩

/-- Embeds `TrieMatch` (trie.ts 221-226).  `from`/`to` are renamed
`mfrom`/`mto` because `from` is a Lean keyword. -/
structure TrieMatch (α : Type) : Type where
  word : String
  mfrom : Nat
  mto : Nat
  payload : Option α
deriving DecidableEq

/-- The inner `while` loop of `Trie.findAllMatches` (trie.ts 162-182):
follow children along the remaining characters, keeping the latest
(= longest) boundary-valid terminal hit in `best`.  `lower` is the
whole lower-cased text, `i` the start offset, `bs` the precomputed
start-boundary check, `j` the current end offset and `rest` the
characters from offset `j` on. -/
def scanGo {α : Type} (lower : List Char) (i : Nat) (bs : Bool) :
    TrieNode α → Nat → List Char → Option (TrieMatch α) → Option (TrieMatch α)
  | _, _, [], best => best
  | n, j, c :: rest, best =>
      match childOf n c with
      | none => best
      | some n1 =>
          let j1 := j + 1
          let bEnd : Bool := match rest with
            | [] => true
            | d :: _ => !isAlphaNumeric d
          let best1 := if n1.isEnd && bs && bEnd then
              some ⟨(n1.word).getD (String.mk ((lower.drop i).take (j1 - i))),
                    i, j1, n1.payload⟩
            else best
          scanGo lower i bs n1 j1 rest best1

/-- One iteration of the outer `for` loop of `Trie.findAllMatches`:
the longest boundary-valid match starting at offset `i`, if any. -/
def scanFrom {α : Type} (root : TrieNode α) (lower : List Char) (i : Nat) :
    Option (TrieMatch α) :=
  let bs : Bool := match i with
    | 0 => true
    | k + 1 => !isAlphaNumeric (lower.getD k ' ')
  scanGo lower i bs root i (lower.drop i) none

/-- Embeds `Trie.findAllMatches` (trie.ts 151-191): for every start
offset, the longest boundary-valid match starting there. -/
def findAllMatches {α : Type} (t : Trie α) (text : String) : List (TrieMatch α) :=
  let lower := lowerChars text
  (List.range lower.length).filterMap (scanFrom t.root lower)

/-- Deterministic walk from a node along a character list. -/
def walkFrom {α : Type} : TrieNode α → List Char → Option (TrieNode α)
  | n, [] => some n
  | n, c :: cs =>
      match childOf n c with
      | none => none
      | some n1 => walkFrom n1 cs

/-- Start-boundary check of `findAllMatches` at offset `i`. -/
def boundaryStartB (lower : List Char) (i : Nat) : Bool :=
  match i with
  | 0 => true
  | k + 1 => !isAlphaNumeric (lower.getD k ' ')

/-- End-boundary check of `findAllMatches` at offset `j`. -/
def boundaryEndB (lower : List Char) (j : Nat) : Bool :=
  if j = lower.length then true else !isAlphaNumeric (lower.getD j ' ')

/-- A boundary-valid terminal hit of the trie on `text`: following the
lower-cased characters from offset `i` to offset `j` reaches a
terminal node, and both word-boundary checks pass. -/
def validHit {α : Type} (t : Trie α) (text : String) (i j : Nat) : Bool :=
  let lower := lowerChars text
  decide (i < j) && decide (j ≤ lower.length) &&
  (match walkFrom t.root ((lower.drop i).take (j - i)) with
   | some n => n.isEnd
   | none => false) &&
  boundaryStartB lower i && boundaryEndB lower j

/-- The trie stores the word `w`: walking its lower-cased characters
from the root reaches a terminal node. -/
def hasWord {α : Type} (t : Trie α) (w : String) : Bool :=
  match walkFrom t.root (lowerChars w) with
  | some n => n.isEnd
  | none => false

/-- End-boundary check relative to a remainder list: the check
performed after consuming `k` characters of `rest`. -/
def bEndAt (rest : List Char) (k : Nat) : Bool :=
  match rest.drop k with
  | [] => true
  | d :: _ => !isAlphaNumeric d

/-- A boundary-valid terminal hit of the inner scan loop, relative to
the current node `n`, current offset `j` and remainder `rest`: after
consuming `k ≥ 1` further characters the walk reaches a terminal node
and the end boundary holds there. -/
def HitP {α : Type} (n : TrieNode α) (j : Nat) (rest : List Char) (j' : Nat) : Prop :=
  ∃ k, 1 ≤ k ∧ j' = j + k ∧ k ≤ rest.length ∧
    (∃ n1, walkFrom n (rest.take k) = some n1 ∧ n1.isEnd = true) ∧
    bEndAt rest k = true

/-! ## Korean morphology service (`src/core/korean-morphology-service.ts`) -/

/-- `s.endsWith(e)` on JavaScript strings. -/
def strEndsWith (s e : String) : Bool := e.data.isSuffixOf s.data

/-- `s.includes(sub)` on JavaScript strings. -/
def strIncludes (s sub : String) : Bool := decide (List.IsInfix sub.data s.data)

/-- `s.startsWith(p)` on JavaScript strings. -/
def strStartsWith (s p : String) : Bool := p.data.isPrefixOf s.data

/-- Embeds `MorphologyAnalysisResult` (korean-morphology-service.ts
8-13); the confidence is modelled as a rational. -/
structure MorphologyAnalysisResult : Type where
  surface : String
  baseForm : String
  partOfSpeech : String
  confidence : ℚ
deriving DecidableEq

/-- The priority-ordered ending table of `fallbackAnalyze`
(korean-morphology-service.ts 660-670). -/
def commonEndings : List String :=
  ["진다", "친다", "는다", "ㄴ다", "다",
   "었다", "았다", "였다",
   "겠다",
   "어요", "아요", "여요",
   "었어요", "았어요", "였어요",
   "겠어요",
   "습니다", "십니다",
   "었습니다", "았습니다", "였습니다",
   "고", "어", "아", "여"]

/-- Embeds `KoreanMorphologyService.fallbackAnalyze`
(korean-morphology-service.ts 656-714): strip the first matching
ending and reconstruct a base form, confidence 0.6; confidence 0.3
with the word itself as base form when nothing matches. -/
def fallbackAnalyze (word : String) : MorphologyAnalysisResult :=
  match commonEndings.find? (fun e => strEndsWith word e) with
  | some ending =>
      let stem := String.mk (word.data.take (word.data.length - ending.data.length))
      let baseForm :=
        if ending = "진다" then stem ++ "지다"
        else if ending = "친다" then stem ++ "치다"
        else if strIncludes ending "다" then
          (if strEndsWith stem "다" then stem else stem ++ "다")
        else stem ++ "다"
      ⟨word, baseForm, "VV", 0.6⟩
  | none => ⟨word, word, "UNKNOWN", 0.3⟩

/-- The normalized token record extracted by `extractTokenInfo`
(korean-morphology-service.ts 507-542).  `analyzeCompoundWord`
consumes the list of successfully extracted records
(`tokens.map(extractTokenInfo).filter(≠ null)`, line 372); the
extraction from the backend's raw token shapes happens before any
pattern logic and is treated as the input boundary here. -/
structure TokenInfo : Type where
  surface : String
  baseForm : String
  partOfSpeech : String
deriving DecidableEq

/-- Embeds `isVerbOrAdjective` (korean-morphology-service.ts 896-908). -/
def isVerbOrAdjective (pos : String) : Bool :=
  strStartsWith pos "VV" || strStartsWith pos "VA" || strStartsWith pos "VX" ||
  strStartsWith pos "XSV" || strStartsWith pos "VCN"

/-- Embeds `isHadaRelatedToken` (korean-morphology-service.ts 914-942). -/
def isHadaRelatedToken (t : TokenInfo) : Bool :=
  (t.surface = "하" || t.surface = "해" || t.surface = "한") ||
  (strStartsWith t.surface "해" || strStartsWith t.surface "합" ||
   strStartsWith t.surface "했") ||
  (strIncludes t.partOfSpeech "XSV" || strIncludes t.partOfSpeech "XSA") ||
  strIncludes t.baseForm "하다"

/-- Embeds `isPassiveStructure` (korean-morphology-service.ts 472-477). -/
def isPassiveStructure (cur next : TokenInfo) : Bool :=
  (next.surface = "되" && strIncludes cur.partOfSpeech "EC") ||
  (cur.surface = "되" || strIncludes cur.surface "되") ||
  (next.partOfSpeech = "XSV" && next.surface = "되")

/-- Embeds `constructPassiveBaseForm` (korean-morphology-service.ts
482-502); `pre` is the token prefix before the passive index. -/
def constructPassiveBaseForm (pre : List TokenInfo) : Option String :=
  match pre.find? (fun t =>
      strIncludes t.partOfSpeech "NNG" || strIncludes t.partOfSpeech "NNP" ||
      strIncludes t.partOfSpeech "VV" || strIncludes t.partOfSpeech "VA") with
  | some t => some (t.surface ++ "되다")
  | none =>
      if 0 < pre.length then
        let stemParts := String.join (pre.map (fun t => t.surface))
        if 0 < stemParts.data.length then some (stemParts ++ "되다") else none
      else none

/-- Pattern 1a of `analyzeCompoundWord` (korean-morphology-service.ts
383-402): first adjacent pair noun + 하다-related token. -/
def compoundPattern1a : List TokenInfo → Option TokenInfo
  | a :: b :: rest =>
      if (strIncludes a.partOfSpeech "NNG" || strIncludes a.partOfSpeech "NNP") &&
          isHadaRelatedToken b then some a
      else compoundPattern1a (b :: rest)
  | _ => none

/-- Pattern 1b of `analyzeCompoundWord` (korean-morphology-service.ts
406-423): first adjacent pair word-root + XSA/XSV suffix. -/
def compoundPattern1b : List TokenInfo → Option TokenInfo
  | a :: b :: rest =>
      if strIncludes a.partOfSpeech "XR" &&
          (strIncludes b.partOfSpeech "XSA" || strIncludes b.partOfSpeech "XSV") then
        some a
      else compoundPattern1b (b :: rest)
  | _ => none

/-- Pattern 2 of `analyzeCompoundWord` (korean-morphology-service.ts
427-444): first adjacent passive structure whose base form can be
constructed; on construction failure the scan continues. -/
def compoundPattern2 (pre : List TokenInfo) : List TokenInfo → Option String
  | a :: b :: rest =>
      if isPassiveStructure a b then
        match constructPassiveBaseForm pre with
        | some bf => some bf
        | none => compoundPattern2 (pre ++ [a]) (b :: rest)
      else compoundPattern2 (pre ++ [a]) (b :: rest)
  | _ => none

/-- Embeds `analyzeCompoundWord` (korean-morphology-service.ts
370-467) on the extracted token records: the four compound rules in
priority order, with their pattern-specific confidences. -/
def analyzeCompoundWord (tokenInfos : List TokenInfo) (originalWord : String) :
    Option MorphologyAnalysisResult :=
  if tokenInfos.length < 2 then none
  else
    match compoundPattern1a tokenInfos with
    | some cur => some ⟨originalWord, cur.surface ++ "하다", "NNG+HADA", 0.95⟩
    | none =>
        match compoundPattern1b tokenInfos with
        | some cur => some ⟨originalWord, cur.surface ++ "하다", "XR+XSA", 0.95⟩
        | none =>
            match compoundPattern2 [] tokenInfos with
            | some bf => some ⟨originalWord, bf, "VV+XSV", 0.92⟩
            | none =>
                let verbTokens := tokenInfos.filter (fun t =>
                  isVerbOrAdjective t.partOfSpeech ||
                  strIncludes t.partOfSpeech "VV" || strIncludes t.partOfSpeech "VA")
                match verbTokens.getLast? with
                | some lastVerb =>
                    some ⟨originalWord, lastVerb.baseForm, lastVerb.partOfSpeech, 0.85⟩
                | none => none

/-! ## Morphology index manager (`MorphologyIndexManager`) -/

/-- A base-form → surface-forms map (`Map<string, Set<string>>`). -/
abbrev MorphIdx := List (String × List String)

/-- Embeds `NoteIndexData`. -/
structure NoteIndexData : Type where
  filePath : String
  lastModified : Nat
  morphologyIndex : MorphIdx
deriving DecidableEq

/-- The state of a `MorphologyIndexManager`, plus a counter of
`analyzeDocument` invocations (the "call counter on the analyzer in a
test double" of the specification). -/
structure MIMState : Type where
  noteIndexes : List (String × NoteIndexData)
  globalIndex : MorphIdx
  isEnabled : Bool
  analyzeCalls : Nat
deriving DecidableEq

/-- A freshly constructed manager: empty indexes, enabled. -/
def MIMState.init : MIMState := ⟨[], [], true, 0⟩

/-- The surface set stored for a base form (empty if absent). -/
def lookupSurf (g : MorphIdx) (b : String) : List String := (alGet g b).getD []

/-- Embeds `addNoteToGlobalIndex` (part_001 576-587): union a note's
contribution into the global index. -/
def addContrib (g : MorphIdx) (em : MorphIdx) : MorphIdx :=
  em.foldl (fun g2 p => alSet g2 p.1 (p.2.foldl setAdd ((alGet g2 p.1).getD []))) g

/-- Embeds `removeNoteFromGlobalIndex` (part_001 592-606): delete each
of the note's surfaces from the global sets, dropping a base form
whose set becomes empty. -/
def removeContrib (g : MorphIdx) (em : MorphIdx) : MorphIdx :=
  em.foldl (fun g2 p =>
    match alGet g2 p.1 with
    | none => g2
    | some gi =>
        let gi2 := p.2.foldl setDel gi
        if gi2.length = 0 then alDel g2 p.1 else alSet g2 p.1 gi2) g

/-- Embeds `indexNote` (part_001 434-473) with the awaited outcome of
`analyzeDocument` as an explicit argument: an `Except.error` models a
rejected analysis promise, caught by `indexNote`'s own `try/catch`
(which then leaves the indexes untouched). -/
def indexNoteAwaited (s : MIMState) (path : String) (mtime : Nat)
    (analysis : Except Unit MorphIdx) : MIMState :=
  if s.isEnabled = false then s
  else
    let existing := alGet s.noteIndexes path
    let unchanged : Bool := match existing with
      | some e => decide (e.lastModified = mtime)
      | none => false
    if unchanged then s
    else
      match analysis with
      | Except.error _ => { s with analyzeCalls := s.analyzeCalls + 1 }
      | Except.ok idx =>
          let g1 := match existing with
            | some e => removeContrib s.globalIndex e.morphologyIndex
            | none => s.globalIndex
          { s with
            analyzeCalls := s.analyzeCalls + 1,
            noteIndexes := alSet s.noteIndexes path ⟨path, mtime, idx⟩,
            globalIndex := addContrib g1 idx }

/-- `indexNote` with a successful analysis result.  In the repository
`analyzeDocument` never rejects (it catches tokenizer errors itself,
korean-morphology-service.ts 887-890), so this is the effective form. -/
def indexNote (s : MIMState) (path : String) (mtime : Nat) (analysis : MorphIdx) :
    MIMState :=
  indexNoteAwaited s path mtime (Except.ok analysis)

/-- Embeds `removeNoteIndex` (part_001 478-486). -/
def removeNoteIndex (s : MIMState) (path : String) : MIMState :=
  match alGet s.noteIndexes path with
  | none => s
  | some e =>
      { s with
        noteIndexes := alDel s.noteIndexes path,
        globalIndex := removeContrib s.globalIndex e.morphologyIndex }

/-- Embeds `clearAllIndexes` (part_001 556-559). -/
def clearAllIndexes (s : MIMState) : MIMState :=
  { s with noteIndexes := [], globalIndex := [] }

/-- Embeds `setEnabled` (part_001 417-422). -/
def setEnabled (s : MIMState) (b : Bool) : MIMState :=
  let s1 := { s with isEnabled := b }
  if b = false then clearAllIndexes s1 else s1

/-- Embeds `rebuildGlobalIndex` (part_001 564-571). -/
def rebuildGlobalIndex (s : MIMState) : MIMState :=
  { s with
    globalIndex := s.noteIndexes.foldl (fun g pe => addContrib g pe.2.morphologyIndex) [] }

/-- Embeds `getAllInflectionForms` (part_001 503-509). -/
def getAllInflectionForms (s : MIMState) (baseForm : String) : List String :=
  if s.isEnabled = false then [baseForm] else lookupSurf s.globalIndex baseForm

/-- The index-relevant outcome of `analyzeDocument`
(korean-morphology-service.ts 719-891): when the backend tokenizer
throws, the `catch` at line 887 returns the partially built
`morphologyIndex`, which is empty because nothing was accumulated
before the throw; when tokenization succeeds the token walk (lines
734-882, abstracted here as `docWalk` since no claim depends on its
content) produces the index.  The call therefore always resolves. -/
def analyzeDocumentIndex {τ : Type} (docWalk : List τ → MorphIdx)
    (tokens : Except Unit (List τ)) : MorphIdx :=
  match tokens with
  | Except.error _ => []
  | Except.ok ts => docWalk ts

/-- `indexNote` composed with the actual analysis pipeline: tokenize
the content (the external collaborator, which may throw) and build the
document index from the tokens. -/
def indexNoteViaService {τ : Type} (tokenize : String → Except Unit (List τ))
    (docWalk : List τ → MorphIdx) (s : MIMState) (path : String) (mtime : Nat)
    (content : String) : MIMState :=
  indexNote s path mtime (analyzeDocumentIndex docWalk (tokenize content))

/-- One public operation on the morphology index manager.  The
analysis result of an `indexNote` step is an arbitrary map with
distinct keys (the analyzer returns a JavaScript `Map`). -/
inductive MIMStep : MIMState → MIMState → Prop where
  | index (s : MIMState) (path : String) (mtime : Nat) (idx : MorphIdx)
      (h : nodupKeys idx) : MIMStep s (indexNote s path mtime idx)
  | remove (s : MIMState) (path : String) : MIMStep s (removeNoteIndex s path)
  | enable (s : MIMState) (b : Bool) : MIMStep s (setEnabled s b)
  | rebuild (s : MIMState) : MIMStep s (rebuildGlobalIndex s)
  | clear (s : MIMState) : MIMStep s (clearAllIndexes s)

/-- Manager states reachable from a fresh manager. -/
inductive MIMReachable : MIMState → Prop where
  | init : MIMReachable MIMState.init
  | step {s s' : MIMState} : MIMReachable s → MIMStep s s' → MIMReachable s'

/-- Structural invariant of the morphology index manager: the global
index is contained in the union of the stored entries' local maps, and
all stored maps have distinct keys. -/
def MIMInv (s : MIMState) : Prop :=
  (∀ b x, x ∈ lookupSurf s.globalIndex b →
     ∃ p e, (p, e) ∈ s.noteIndexes ∧ x ∈ lookupSurf e.morphologyIndex b) ∧
  (∀ p e, (p, e) ∈ s.noteIndexes → nodupKeys e.morphologyIndex) ∧
  nodupKeys s.noteIndexes

/-! ## Vocabulary manager cache layer (`src/core/vocabulary-manager.ts`) -/

/-- Embeds `WordDefinition` (unnamed/part_000 23-31). -/
structure WordDefinition : Type where
  word : String
  definition : String
  etymology : Option String
  source : String
  nodeId : String
  color : Option String
  mastered : Option Bool
deriving DecidableEq

/-- The cache-relevant state of a `VocabularyManager`: the per-book
definition lists and the derived caches.  The persistence-side fields
(`memoryOnlyWords`, `pendingSyncWords`, `syncTimeouts`) do not touch
the derived caches and are not modelled. -/
structure VMState : Type where
  definitions : List (String × List WordDefinition)
  wordDefinitionCache : List (String × WordDefinition)
  allWordsCache : List String
  bookWordsCache : List (String × List String)
  cacheValid : Bool
deriving DecidableEq

/-- A freshly constructed manager: everything empty, cache invalid. -/
def VMState.init : VMState := ⟨[], [], [], [], false⟩

/-- Embeds `invalidateCache` (vocabulary-manager.ts 358-363). -/
def invalidateCache (s : VMState) : VMState :=
  { s with cacheValid := false, wordDefinitionCache := [], allWordsCache := [],
           bookWordsCache := [] }

/-- Embeds `loadVocabularyBook` (vocabulary-manager.ts 64-86): store
the parsed definitions for the book, then invalidate the caches. -/
def loadVocabularyBook (s : VMState) (path : String) (defs : List WordDefinition) :
    VMState :=
  invalidateCache { s with definitions := alSet s.definitions path defs }

/-- One definition's contribution to the rebuilt caches: the inner
loop body of `rebuildCache` (vocabulary-manager.ts 383-389), over the
accumulator (word cache, all-words set, current book's word set). -/
def rebuildStepDef (ac2 : List (String × WordDefinition) × List String × List String)
    (d : WordDefinition) : List (String × WordDefinition) × List String × List String :=
  let nw := normalizeWord d.word
  (alSet ac2.1 nw d, setAdd ac2.2.1 nw, setAdd ac2.2.2 nw)

/-- One book's contribution: the outer loop body of `rebuildCache`
(vocabulary-manager.ts 380-393), over the accumulator (word cache,
all-words set, per-book word lists). -/
def rebuildStepBook
    (acc : List (String × WordDefinition) × List String × List (String × List String))
    (bp : String × List WordDefinition) :
    List (String × WordDefinition) × List String × List (String × List String) :=
  let inner := bp.2.foldl rebuildStepDef (acc.1, acc.2.1, [])
  (inner.1, inner.2.1, acc.2.2 ++ [(bp.1, inner.2.2)])

/-- Embeds `rebuildCache` (vocabulary-manager.ts 369-400): clear the
caches, repopulate them from every book's definitions in one pass, and
mark the cache valid only at the end. -/
def rebuildCache (s : VMState) : VMState :=
  let acc := s.definitions.foldl rebuildStepBook ([], [], [])
  { s with wordDefinitionCache := acc.1, allWordsCache := acc.2.1,
           bookWordsCache := acc.2.2, cacheValid := true }

/-- The full-search fallback of `getDefinition` (vocabulary-manager.ts
117-125): scan every book for a definition whose `word` field equals
the normalized word. -/
def findDefInBooks : List (String × List WordDefinition) → String → Option WordDefinition
  | [], _ => none
  | (_, defs) :: rest, nw =>
      match defs.find? (fun d => d.word == nw) with
      | some d => some d
      | none => findDefInBooks rest nw

/-- The cache update performed by the full search on a hit
(vocabulary-manager.ts 120-124). -/
def fullSearch (s : VMState) (nw : String) : Option WordDefinition × VMState :=
  match findDefInBooks s.definitions nw with
  | some d =>
      (some d, { s with wordDefinitionCache := alSet s.wordDefinitionCache nw d })
  | none => (none, s)

/-- Embeds the synchronous part of `getDefinition`
(vocabulary-manager.ts 94-145): visited-set check, valid-cache lookup,
rebuild-then-lookup when invalid, then full search.  The asynchronous
morphological branch only schedules work and does not change the
synchronous return value; its later effect is `morphResolve`. -/
def getDefinitionStep (s : VMState) (word : String) (visited : List String) :
    Option WordDefinition × VMState :=
  let nw := normalizeWord word
  if nw ∈ visited then (none, s)
  else if s.cacheValid then
    match alGet s.wordDefinitionCache nw with
    | some d => (some d, s)
    | none => fullSearch s nw
  else
    let s1 := rebuildCache s
    match alGet s1.wordDefinitionCache nw with
    | some d => (some d, s1)
    | none => fullSearch s1 nw

/-- Embeds the asynchronous continuation of `getDefinition`
(vocabulary-manager.ts 130-141): when the analyzer resolves `nw` to a
different base form, look the base form up (with `nw` in the visited
set) and on success cache surface → definition.  `cacheValid` is not
touched. -/
def morphResolve (s : VMState) (nw baseForm : String) (visited : List String) :
    VMState :=
  if baseForm = nw then s
  else
    let r := getDefinitionStep s baseForm (nw :: visited)
    match r.1 with
    | some d => { r.2 with wordDefinitionCache := alSet r.2.wordDefinitionCache nw d }
    | none => r.2

/-- Embeds `addWordToMemoryCache` (vocabulary-manager.ts 459-480). -/
def addWordToMemoryCache (s : VMState) (bookPath : String) (wordDef : WordDefinition) :
    VMState :=
  let bookWords := (alGet s.definitions bookPath).getD []
  let newBook := match bookWords.findIdx? (fun w => w.word == wordDef.word) with
    | some i => bookWords.set i wordDef
    | none => bookWords ++ [wordDef]
  { s with definitions := alSet s.definitions bookPath newBook,
           wordDefinitionCache := alSet s.wordDefinitionCache wordDef.word wordDef,
           cacheValid := false }

/-- Embeds `updateWordInMemoryCache` (vocabulary-manager.ts 485-512). -/
def updateWordInMemoryCache (s : VMState) (bookPath nodeId : String)
    (updated : WordDefinition) : VMState :=
  match alGet s.definitions bookPath with
  | none => s
  | some bookWords =>
      match bookWords.findIdx? (fun w => w.nodeId == nodeId) with
      | none => s
      | some i =>
          match bookWords.get? i with
          | none => s
          | some old =>
              { s with
                definitions := alSet s.definitions bookPath (bookWords.set i updated),
                wordDefinitionCache :=
                  alSet (alDel s.wordDefinitionCache old.word) updated.word updated,
                cacheValid := false }

/-- Embeds `deleteWordFromMemoryCache` (vocabulary-manager.ts 631-667). -/
def deleteWordFromMemoryCache (s : VMState) (bookPath nodeId : String) : VMState :=
  match alGet s.definitions bookPath with
  | none => s
  | some bookWords =>
      match bookWords.findIdx? (fun w => w.nodeId == nodeId) with
      | none => s
      | some i =>
          match bookWords.get? i with
          | none => s
          | some old =>
              { s with
                definitions := alSet s.definitions bookPath (bookWords.eraseIdx i),
                wordDefinitionCache := alDel s.wordDefinitionCache old.word,
                cacheValid := false }

/-- Embeds `clear` (vocabulary-manager.ts 289-292). -/
def clearVM (s : VMState) : VMState := invalidateCache { s with definitions := [] }

/-- One cache-affecting operation on the vocabulary manager.  The
`morph` step is the analyzer callback; its base-form argument is the
external tokenizer's output and is therefore arbitrary. -/
inductive VMStep : VMState → VMState → Prop where
  | load (s : VMState) (path : String) (defs : List WordDefinition) :
      VMStep s (loadVocabularyBook s path defs)
  | rebuild (s : VMState) : VMStep s (rebuildCache s)
  | invalidate (s : VMState) : VMStep s (invalidateCache s)
  | getDef (s : VMState) (word : String) (visited : List String) :
      VMStep s (getDefinitionStep s word visited).2
  | morph (s : VMState) (nw baseForm : String) (visited : List String)
      (hk : isKoreanText nw = true) : VMStep s (morphResolve s nw baseForm visited)
  | add (s : VMState) (path : String) (d : WordDefinition) :
      VMStep s (addWordToMemoryCache s path d)
  | update (s : VMState) (path nodeId : String) (d : WordDefinition) :
      VMStep s (updateWordInMemoryCache s path nodeId d)
  | delete (s : VMState) (path nodeId : String) :
      VMStep s (deleteWordFromMemoryCache s path nodeId)
  | clear (s : VMState) : VMStep s (clearVM s)

/-- Vocabulary-manager states reachable from a fresh manager. -/
inductive VMReachable : VMState → Prop where
  | init : VMReachable VMState.init
  | step {s s' : VMState} : VMReachable s → VMStep s s' → VMReachable s'

/-- Cache-coherence invariant of the vocabulary manager: whenever the
cache is marked valid, every word of `allWordsCache` is a key of
`wordDefinitionCache`. -/
def VMInv (s : VMState) : Prop :=
  s.cacheValid = true →
    ∀ w ∈ s.allWordsCache, (alGet s.wordDefinitionCache w).isSome = true

/-! ## Concrete instances used by witnesses and counterexamples -/

/-- The trie of the specification's overlap example: "cat" and
"category" added. -/
def catCategoryTrie : Trie String :=
  addWord (addWord Trie.empty "cat" "def-cat") "category" "def-category"

/-- The trie of the specification's boundary example: only "cat". -/
def catTrie : Trie String := addWord Trie.empty "cat" "def-cat"

/-- Two Hangul words, one a suffix of the other, added to one trie. -/
def hangulPairTrie : Trie String :=
  addWord (addWord Trie.empty "가나" "d1") "나" "d2"

/-- Two adjacent verb tokens: matched only by the compound-verb rule
(pattern 3) of `analyzeCompoundWord`. -/
def compoundVerbTokens : List TokenInfo :=
  [⟨"먹", "먹다", "VV"⟩, ⟨"가", "가다", "VV"⟩]

/-- Noun + 하다 tokens: matched by pattern 1a of `analyzeCompoundWord`. -/
def nounHadaTokens : List TokenInfo :=
  [⟨"공부", "공부", "NNG"⟩, ⟨"하", "하다", "XSV"⟩]

/-- Index state: note a.md contributes 해요 under 하다. -/
def mimA : MIMState := indexNote MIMState.init "a.md" 1 [("하다", ["해요"])]

/-- Index state: notes a.md and b.md both contribute 해요 under 하다. -/
def mimB : MIMState := indexNote mimA "b.md" 1 [("하다", ["해요"])]

/-- Index state after removing a.md from `mimB`. -/
def mimRemoved : MIMState := removeNoteIndex mimB "a.md"

/-- Index state with a stored entry for a.md (timestamp 1). -/
def mimC4pre : MIMState := indexNote MIMState.init "a.md" 1 [("먹다", ["먹었다"])]

/-- A backend tokenizer that throws on every input. -/
def failTokenize : String → Except Unit (List Unit) := fun _ => Except.error ()

/-- A document token walk producing nothing (its value is irrelevant
when the tokenizer throws). -/
def emptyDocWalk : List Unit → MorphIdx := fun _ => []

/-- Re-indexing a.md with newer timestamp 2 while the tokenizer throws. -/
def mimC4post : MIMState :=
  indexNoteViaService failTokenize emptyDocWalk mimC4pre "a.md" 2 "new content"

/-- A stored definition for the base form 먹다. -/
def mokDef : WordDefinition := ⟨"먹다", "to eat", none, "book.canvas", "n1", none, none⟩

/-- Vocabulary state after loading one book with `mokDef`. -/
def vmLoaded : VMState := loadVocabularyBook VMState.init "book.canvas" [mokDef]

/-- Vocabulary state after a cache rebuild. -/
def vmRebuilt : VMState := rebuildCache vmLoaded

/-- Vocabulary state after the analyzer callback resolved the surface
먹었어요 to the base form 먹다 and cached surface → definition. -/
def vmAfterMorph : VMState := morphResolve vmRebuilt "먹었어요" "먹다" []

/-! ## Association-list lemmas -/

theorem alGet_alSet_self {β : Type} :
    ∀ (l : List (String × β)) (k : String) (v : β), alGet (alSet l k v) k = some v
  | [], k, v => by simp [alSet, alGet]
  | (k0, v0) :: t, k, v => by
      by_cases h : k0 = k
      · simp [alSet, alGet, h]
      · simp [alSet, alGet, h, alGet_alSet_self t k v]

theorem alGet_alSet_ne {β : Type} :
    ∀ (l : List (String × β)) (k k' : String) (v : β), k ≠ k' →
      alGet (alSet l k v) k' = alGet l k'
  | [], k, k', v, h => by simp [alSet, alGet, h]
  | (k0, v0) :: t, k, k', v, h => by
      by_cases h0 : k0 = k
      · subst h0; simp [alSet, alGet, h]
      · simp only [alSet, if_neg h0]
        by_cases h1 : k0 = k'
        · simp [alGet, h1]
        · simp [alGet, h1, alGet_alSet_ne t k k' v h]

theorem alGet_alDel_self {β : Type} :
    ∀ (l : List (String × β)) (k : String), alGet (alDel l k) k = none
  | [], k => by simp [alDel, alGet]
  | (k0, v0) :: t, k => by
      by_cases h : k0 = k
      · simp [alDel, h, alGet_alDel_self t k]
      · simp [alDel, alGet, h, alGet_alDel_self t k]

theorem alGet_alDel_ne {β : Type} :
    ∀ (l : List (String × β)) (k k' : String), k ≠ k' →
      alGet (alDel l k) k' = alGet l k'
  | [], k, k', h => by simp [alDel, alGet]
  | (k0, v0) :: t, k, k', h => by
      by_cases h0 : k0 = k
      · subst h0; simp [alDel, alGet, h, alGet_alDel_ne t k0 k' h]
      · simp only [alDel, if_neg h0]
        by_cases h1 : k0 = k'
        · simp [alGet, h1]
        · simp [alGet, h1, alGet_alDel_ne t k k' h]

theorem mem_alSet {β : Type} :
    ∀ (l : List (String × β)) (k : String) (v : β) (p : String × β),
      p ∈ alSet l k v → p = (k, v) ∨ p ∈ l
  | [], k, v, p, h => by simpa [alSet] using h
  | (k0, v0) :: t, k, v, p, h => by
      by_cases h0 : k0 = k
      · simp only [alSet, if_pos h0] at h
        rcases List.mem_cons.mp h with h1 | h1
        · exact Or.inl h1
        · exact Or.inr (List.mem_cons_of_mem _ h1)
      · simp only [alSet, if_neg h0] at h
        rcases List.mem_cons.mp h with h1 | h1
        · exact Or.inr (h1 ▸ List.mem_cons_self _ _)
        · rcases mem_alSet t k v p h1 with h2 | h2
          · exact Or.inl h2
          · exact Or.inr (List.mem_cons_of_mem _ h2)

theorem self_mem_alSet {β : Type} :
    ∀ (l : List (String × β)) (k : String) (v : β), (k, v) ∈ alSet l k v
  | [], k, v => by simp [alSet]
  | (k0, v0) :: t, k, v => by
      by_cases h0 : k0 = k
      · simp [alSet, h0]
      · simp only [alSet, if_neg h0]
        exact List.mem_cons_of_mem _ (self_mem_alSet t k v)

theorem mem_alSet_of_mem_ne {β : Type} :
    ∀ (l : List (String × β)) (k : String) (v : β) (p : String × β),
      p ∈ l → p.1 ≠ k → p ∈ alSet l k v
  | [], k, v, p, h, hne => by simp at h
  | (k0, v0) :: t, k, v, p, h, hne => by
      by_cases h0 : k0 = k
      · simp only [alSet, if_pos h0]
        rcases List.mem_cons.mp h with h1 | h1
        · exact absurd (show p.1 = k by rw [h1]; exact h0) hne
        · exact List.mem_cons_of_mem _ h1
      · simp only [alSet, if_neg h0]
        rcases List.mem_cons.mp h with h1 | h1
        · exact h1 ▸ List.mem_cons_self _ _
        · exact List.mem_cons_of_mem _ (mem_alSet_of_mem_ne t k v p h1 hne)

theorem mem_alDel {β : Type} :
    ∀ (l : List (String × β)) (k : String) (p : String × β),
      p ∈ alDel l k → p ∈ l ∧ p.1 ≠ k
  | [], k, p, h => by simp [alDel] at h
  | (k0, v0) :: t, k, p, h => by
      by_cases h0 : k0 = k
      · simp only [alDel, if_pos h0] at h
        have := mem_alDel t k p h
        exact ⟨List.mem_cons_of_mem _ this.1, this.2⟩
      · simp only [alDel, if_neg h0] at h
        rcases List.mem_cons.mp h with h1 | h1
        · exact ⟨h1 ▸ List.mem_cons_self _ _, by simpa [h1] using h0⟩
        · have := mem_alDel t k p h1
          exact ⟨List.mem_cons_of_mem _ this.1, this.2⟩

theorem alGet_isSome_of_mem {β : Type} :
    ∀ (l : List (String × β)) (k : String) (v : β), (k, v) ∈ l → (alGet l k).isSome
  | [], k, v, h => by simp at h
  | (k0, v0) :: t, k, v, h => by
      by_cases h0 : k0 = k
      · simp [alGet, h0]
      · rcases List.mem_cons.mp h with h1 | h1
        · cases h1; simp at h0
        · simp [alGet, h0, alGet_isSome_of_mem t k v h1]

theorem alGet_mem {β : Type} :
    ∀ (l : List (String × β)) (k : String) (v : β), alGet l k = some v → (k, v) ∈ l
  | [], k, v, h => by simp [alGet] at h
  | (k0, v0) :: t, k, v, h => by
      by_cases h0 : k0 = k
      · simp only [alGet, if_pos h0] at h
        cases h
        exact h0 ▸ List.mem_cons_self _ _
      · simp only [alGet, if_neg h0] at h
        exact List.mem_cons_of_mem _ (alGet_mem t k v h)

theorem eq_of_mem_nodupKeys {β : Type} :
    ∀ (l : List (String × β)) (k : String) (v v' : β), nodupKeys l →
      (k, v) ∈ l → alGet l k = some v' → v = v'
  | [], k, v, v', hn, hm, hg => by simp at hm
  | (k0, v0) :: t, k, v, v', hn, hm, hg => by
      have hn' : nodupKeys t := (List.nodup_cons.mp hn).2
      have hk0 : k0 ∉ t.map Prod.fst := (List.nodup_cons.mp hn).1
      by_cases h0 : k0 = k
      · subst h0
        simp only [alGet, if_pos rfl] at hg
        cases hg
        rcases List.mem_cons.mp hm with h1 | h1
        · exact congrArg Prod.snd h1
        · exact absurd (List.mem_map_of_mem Prod.fst h1) hk0
      · simp only [alGet, if_neg h0] at hg
        rcases List.mem_cons.mp hm with h1 | h1
        · exact absurd (congrArg Prod.fst h1).symm h0
        · exact eq_of_mem_nodupKeys t k v v' hn' h1 hg

theorem nodupKeys_alSet {β : Type} :
    ∀ (l : List (String × β)) (k : String) (v : β), nodupKeys l →
      nodupKeys (alSet l k v)
  | [], k, v, h => by simp [alSet, nodupKeys]
  | (k0, v0) :: t, k, v, h => by
      rcases List.nodup_cons.mp h with ⟨h1, h2⟩
      by_cases h0 : k0 = k
      · subst h0
        simp only [alSet, if_pos rfl]
        exact h
      · simp only [alSet, if_neg h0]
        refine List.nodup_cons.mpr ⟨?_, nodupKeys_alSet t k v h2⟩
        intro hmem
        rcases List.mem_map.mp hmem with ⟨p, hp, hpe⟩
        rcases mem_alSet t k v p hp with h3 | h3
        · refine h0 ?_
          rw [h3] at hpe
          exact hpe.symm
        · exact h1 (hpe ▸ List.mem_map_of_mem Prod.fst h3)

theorem nodupKeys_alDel {β : Type} :
    ∀ (l : List (String × β)) (k : String), nodupKeys l → nodupKeys (alDel l k)
  | [], k, h => by simp [alDel, nodupKeys]
  | (k0, v0) :: t, k, h => by
      rcases List.nodup_cons.mp h with ⟨h1, h2⟩
      by_cases h0 : k0 = k
      · simp only [alDel, if_pos h0]
        exact nodupKeys_alDel t k h2
      · simp only [alDel, if_neg h0]
        refine List.nodup_cons.mpr ⟨?_, nodupKeys_alDel t k h2⟩
        intro hmem
        rcases List.mem_map.mp hmem with ⟨p, hp, hpe⟩
        exact h1 (hpe ▸ List.mem_map_of_mem Prod.fst (mem_alDel t k p hp).1)

/-! ## Set-list lemmas -/

theorem mem_setAdd (l : List String) (x y : String) :
    y ∈ setAdd l x ↔ y ∈ l ∨ y = x := by
  unfold setAdd
  by_cases h : x ∈ l
  · simp only [if_pos h]
    constructor
    · exact Or.inl
    · rintro (h1 | rfl)
      · exact h1
      · exact h
  · simp [if_neg h]

theorem mem_foldl_setAdd :
    ∀ (xs : List String) (l : List String) (y : String),
      y ∈ xs.foldl setAdd l ↔ y ∈ l ∨ y ∈ xs
  | [], l, y => by simp
  | x :: xs, l, y => by
      simp only [List.foldl_cons, mem_foldl_setAdd xs (setAdd l x) y, mem_setAdd,
        List.mem_cons]
      tauto

theorem mem_setDel :
    ∀ (l : List String) (x y : String), y ∈ setDel l x ↔ y ∈ l ∧ y ≠ x
  | [], x, y => by simp [setDel]
  | z :: t, x, y => by
      by_cases h : z = x
      · simp only [setDel]
        rw [if_pos h]
        rw [mem_setDel t x y]
        subst h
        simp only [List.mem_cons]
        constructor
        · rintro ⟨h1, h2⟩; exact ⟨Or.inr h1, h2⟩
        · rintro ⟨h1 | h1, h2⟩
          · exact absurd h1 h2
          · exact ⟨h1, h2⟩
      · simp only [setDel]
        rw [if_neg h]
        simp only [List.mem_cons, mem_setDel t x y]
        constructor
        · rintro (rfl | ⟨h1, h2⟩)
          · exact ⟨Or.inl rfl, h⟩
          · exact ⟨Or.inr h1, h2⟩
        · rintro ⟨h1 | h1, h2⟩
          · exact Or.inl h1
          · exact Or.inr ⟨h1, h2⟩

theorem mem_foldl_setDel :
    ∀ (xs : List String) (l : List String) (y : String),
      y ∈ xs.foldl setDel l ↔ y ∈ l ∧ y ∉ xs
  | [], l, y => by simp
  | x :: xs, l, y => by
      simp only [List.foldl_cons, mem_foldl_setDel xs (setDel l x) y, mem_setDel,
        List.mem_cons]
      tauto

/-! ## Claim C3: the timestamp guard of indexNote -/

/-- C3: for every index state, calling `indexNote` a second time with
the same document id and the same last-modified timestamp is a no-op:
the whole manager state — global index, stored entries, enabled flag
and the `analyzeDocument` call counter — is unchanged, so the analyzer
is not invoked again. -/
theorem indexNote_timestamp_guard (s : MIMState) (path : String) (mtime : Nat)
    (analysis : MorphIdx) :
    indexNote (indexNote s path mtime analysis) path mtime analysis =
      indexNote s path mtime analysis ∧
    (indexNote (indexNote s path mtime analysis) path mtime analysis).analyzeCalls =
      (indexNote s path mtime analysis).analyzeCalls := by
  have hmain : indexNote (indexNote s path mtime analysis) path mtime analysis =
      indexNote s path mtime analysis := by
    by_cases he : s.isEnabled = false
    · have h1 : indexNote s path mtime analysis = s := by
        simp [indexNote, indexNoteAwaited, he]
      simp only [h1]
    · have he2 : s.isEnabled = true := by
        revert he; cases s.isEnabled <;> simp
      cases hg : alGet s.noteIndexes path with
      | some e =>
          by_cases hm : e.lastModified = mtime
          · have h1 : indexNote s path mtime analysis = s := by
              simp [indexNote, indexNoteAwaited, he2, hg, hm]
            simp only [h1]
          · have h1 : indexNote s path mtime analysis =
                { s with analyzeCalls := s.analyzeCalls + 1,
                         noteIndexes := alSet s.noteIndexes path ⟨path, mtime, analysis⟩,
                         globalIndex :=
                           addContrib (removeContrib s.globalIndex e.morphologyIndex)
                             analysis } := by
              simp [indexNote, indexNoteAwaited, he2, hg, hm]
            rw [h1]
            simp [indexNote, indexNoteAwaited, he2, alGet_alSet_self]
      | none =>
          have h1 : indexNote s path mtime analysis =
              { s with analyzeCalls := s.analyzeCalls + 1,
                       noteIndexes := alSet s.noteIndexes path ⟨path, mtime, analysis⟩,
                       globalIndex := addContrib s.globalIndex analysis } := by
            simp [indexNote, indexNoteAwaited, he2, hg]
          rw [h1]
          simp [indexNote, indexNoteAwaited, he2, alGet_alSet_self]
  exact ⟨hmain, congrArg MIMState.analyzeCalls hmain⟩

/-! ## Claim C9: the rule-based fallback analyzer -/

theorem strEndsWith_append (s t u : String) (h : strEndsWith t u = true) :
    strEndsWith (s ++ t) u = true := by
  have h2 : u.data <:+ t.data := List.isSuffixOf_iff_suffix.mp h
  have h3 : u.data <:+ (s.data ++ t.data) := h2.trans (List.suffix_append s.data t.data)
  unfold strEndsWith
  rw [String.data_append]
  exact List.isSuffixOf_iff_suffix.mpr h3

/-- C9: on the rule-based fallback path, if some ending of the
priority-ordered table matches the word's suffix then the returned
base form ends in the infinitive marker 다 and the confidence is
exactly 0.6; if no ending matches, the base form is the input word
itself and the confidence is exactly 0.3. -/
theorem fallbackAnalyze_spec (word : String) :
    ((∃ e ∈ commonEndings, strEndsWith word e = true) →
       strEndsWith (fallbackAnalyze word).baseForm "다" = true ∧
       (fallbackAnalyze word).confidence = 0.6) ∧
    ((∀ e ∈ commonEndings, strEndsWith word e = false) →
       fallbackAnalyze word = ⟨word, word, "UNKNOWN", 0.3⟩) := by
  cases hf : commonEndings.find? (fun e => strEndsWith word e) with
  | none =>
      constructor
      · rintro ⟨e, he, hw⟩
        have := List.find?_eq_none.mp hf e he
        simp [hw] at this
      · intro _
        simp [fallbackAnalyze, hf]
  | some ending =>
      constructor
      · intro _
        constructor
        · simp only [fallbackAnalyze, hf]
          split
          · exact strEndsWith_append _ _ _ (by decide)
          · split
            · exact strEndsWith_append _ _ _ (by decide)
            · split
              · split
                · assumption
                · exact strEndsWith_append _ _ _ (by decide)
              · exact strEndsWith_append _ _ _ (by decide)
        · simp [fallbackAnalyze, hf]
      · intro hall
        have hend : strEndsWith word ending = true := List.find?_some hf
        have hmem : ending ∈ commonEndings := List.mem_of_find?_eq_some hf
        rw [hall ending hmem] at hend
        exact absurd hend (by simp)

/-- Witness for C9: applying the theorem at the matched input 갔다
(ending 다, confidence 0.6) and the unmatched input 사과
(confidence 0.3). -/
theorem fallbackAnalyze_spec_witness :
    (strEndsWith (fallbackAnalyze "갔다").baseForm "다" = true ∧
       (fallbackAnalyze "갔다").confidence = 0.6) ∧
    fallbackAnalyze "사과" = ⟨"사과", "사과", "UNKNOWN", 0.3⟩ :=
  ⟨(fallbackAnalyze_spec "갔다").1 ⟨"다", by decide, by decide⟩,
   (fallbackAnalyze_spec "사과").2 (by decide)⟩

/-! ## Claim C8: compound-pattern confidences -/

/-- C8 counterexample: the compound-verb rule (pattern 3) of
`analyzeCompoundWord` fires on two adjacent plain verb tokens and
produces confidence 0.85, which is outside the claimed interval
[0.90, 0.95]. -/
theorem compound_confidence_counterexample :
    analyzeCompoundWord compoundVerbTokens "먹가" =
      some ⟨"먹가", "가다", "VV", 0.85⟩ ∧
    ¬ ((0.9 : ℚ) ≤ (0.85 : ℚ)) :=
  ⟨rfl, by norm_num⟩

/-- C8 amended: every result of a compound-pattern match in
`analyzeCompoundWord` has confidence 0.95 (noun + support verb and
root + deriving suffix), 0.92 (passive voice), or 0.85 (the remaining
compound-verb rule); so all compound confidences lie in [0.85, 0.95],
and only the three named patterns lie in [0.90, 0.95]. -/
theorem analyzeCompoundWord_confidence (tokenInfos : List TokenInfo)
    (w : String) (r : MorphologyAnalysisResult)
    (h : analyzeCompoundWord tokenInfos w = some r) :
    r.confidence = 0.95 ∨ r.confidence = 0.92 ∨ r.confidence = 0.85 := by
  unfold analyzeCompoundWord at h
  by_cases hlen : tokenInfos.length < 2
  · rw [if_pos hlen] at h
    exact Option.noConfusion h
  · rw [if_neg hlen] at h
    cases h1a : compoundPattern1a tokenInfos with
    | some cur =>
        simp only [h1a] at h
        exact Or.inl ((Option.some.inj h) ▸ rfl)
    | none =>
        simp only [h1a] at h
        cases h1b : compoundPattern1b tokenInfos with
        | some cur =>
            simp only [h1b] at h
            exact Or.inl ((Option.some.inj h) ▸ rfl)
        | none =>
            simp only [h1b] at h
            cases h2 : compoundPattern2 [] tokenInfos with
            | some bf =>
                simp only [h2] at h
                exact Or.inr (Or.inl ((Option.some.inj h) ▸ rfl))
            | none =>
                simp only [h2] at h
                cases h3 : (tokenInfos.filter (fun t =>
                    isVerbOrAdjective t.partOfSpeech ||
                    strIncludes t.partOfSpeech "VV" ||
                    strIncludes t.partOfSpeech "VA")).getLast? with
                | some lastVerb =>
                    simp only [h3] at h
                    exact Or.inr (Or.inr ((Option.some.inj h) ▸ rfl))
                | none =>
                    simp only [h3] at h
                    exact Option.noConfusion h

/-- Witness for C8 amended: the noun + 하다 tokens produce a compound
result, and the theorem places its confidence among the three pattern
constants. -/
theorem analyzeCompoundWord_confidence_witness :
    (⟨"공부하", "공부하다", "NNG+HADA", 0.95⟩ :
        MorphologyAnalysisResult).confidence = 0.95 ∨
    (⟨"공부하", "공부하다", "NNG+HADA", 0.95⟩ :
        MorphologyAnalysisResult).confidence = 0.92 ∨
    (⟨"공부하", "공부하다", "NNG+HADA", 0.95⟩ :
        MorphologyAnalysisResult).confidence = 0.85 :=
  analyzeCompoundWord_confidence nounHadaTokens "공부하" _ rfl

/-! ## Claim C4: analysis failure during re-indexing -/

/-- C4 counterexample: with an entry for a.md stored (timestamp 1,
contributing 먹었다 under 먹다), re-indexing a.md while the backend
tokenizer throws does NOT leave the old entry untouched: the entry is
replaced by one with an empty local map and the old contribution is
removed from the global index, because `analyzeDocument` catches the
throw itself and resolves with an empty index. -/
theorem indexNote_tokenizer_throw_counterexample :
    (alGet mimC4pre.noteIndexes "a.md" =
       some ⟨"a.md", 1, [("먹다", ["먹었다"])]⟩) ∧
    lookupSurf mimC4pre.globalIndex "먹다" = ["먹었다"] ∧
    (alGet mimC4post.noteIndexes "a.md" = some ⟨"a.md", 2, []⟩) ∧
    mimC4post.globalIndex = [] := by
  refine ⟨by decide, by decide, by decide, by decide⟩

/-- C4 amended: only a rejected analysis promise is caught by
`indexNote`'s own try/catch, leaving both indexes untouched; a backend
tokenizer throw is caught inside `analyzeDocument` (which resolves
with the partially built — empty — index), so `indexNote` then behaves
exactly like a successful indexing with an empty analysis result:
the old entry is replaced wholesale and its contribution removed. -/
theorem indexNote_analysis_error_handling :
    (∀ (s : MIMState) (path : String) (mtime : Nat),
       (indexNoteAwaited s path mtime (Except.error ())).noteIndexes =
         s.noteIndexes ∧
       (indexNoteAwaited s path mtime (Except.error ())).globalIndex =
         s.globalIndex) ∧
    (∀ (τ : Type) (tokenize : String → Except Unit (List τ))
       (docWalk : List τ → MorphIdx) (s : MIMState) (path : String)
       (mtime : Nat) (content : String),
       tokenize content = Except.error () →
       indexNoteViaService tokenize docWalk s path mtime content =
         indexNote s path mtime []) := by
  constructor
  · intro s path mtime
    unfold indexNoteAwaited
    by_cases he : s.isEnabled = false
    · simp [he]
    · have he2 : s.isEnabled = true := by
        revert he; cases s.isEnabled <;> simp
      cases hg : alGet s.noteIndexes path with
      | some e =>
          by_cases hm : e.lastModified = mtime
          · simp [he2, hg, hm]
          · simp [he2, hg, hm]
      | none => simp [he2, hg]
  · intro τ tokenize docWalk s path mtime content htok
    unfold indexNoteViaService
    rw [htok]
    rfl

/-- Witness for C4 amended: the throwing tokenizer on the concrete
pre-state gives exactly `indexNote` with the empty index, and the
rejected-promise branch leaves a concrete state's indexes unchanged. -/
theorem indexNote_analysis_error_handling_witness :
    (indexNoteViaService failTokenize emptyDocWalk mimC4pre "a.md" 2
        "new content" = indexNote mimC4pre "a.md" 2 []) ∧
    ((indexNoteAwaited mimC4pre "a.md" 2 (Except.error ())).noteIndexes =
        mimC4pre.noteIndexes) :=
  ⟨indexNote_analysis_error_handling.2 Unit failTokenize emptyDocWalk
      mimC4pre "a.md" 2 "new content" rfl,
   (indexNote_analysis_error_handling.1 mimC4pre "a.md" 2).1⟩

/-! ## Trie scan lemmas -/

theorem hitP_down {α : Type} {n n1 : TrieNode α} {j j' : Nat} {c : Char}
    {rest : List Char} (hc : childOf n c = some n1)
    (h : HitP n j (c :: rest) j') (hgt : j + 1 < j') :
    HitP n1 (j + 1) rest j' := by
  obtain ⟨k, hk1, hkj, hklen, ⟨n2, hw, he⟩, hbe⟩ := h
  obtain ⟨k0, rfl⟩ : ∃ k0, k = k0 + 1 := ⟨k - 1, by omega⟩
  have hk0 : 1 ≤ k0 := by omega
  refine ⟨k0, hk0, by omega, by simpa using hklen, ⟨n2, ?_, he⟩, ?_⟩
  · rw [List.take_succ_cons] at hw
    simp only [walkFrom, hc] at hw
    exact hw
  · simpa [bEndAt, List.drop_succ_cons] using hbe

theorem hitP_up {α : Type} {n n1 : TrieNode α} {j j' : Nat} {c : Char}
    {rest : List Char} (hc : childOf n c = some n1)
    (h : HitP n1 (j + 1) rest j') : HitP n j (c :: rest) j' := by
  obtain ⟨k, hk1, hkj, hklen, ⟨n2, hw, he⟩, hbe⟩ := h
  refine ⟨k + 1, by omega, by omega, by simpa using Nat.succ_le_succ hklen,
    ⟨n2, ?_, he⟩, ?_⟩
  · rw [List.take_succ_cons]
    simp only [walkFrom, hc]
    exact hw
  · simpa [bEndAt, List.drop_succ_cons] using hbe

theorem hitP_one {α : Type} {n n1 : TrieNode α} {j : Nat} {c : Char}
    {rest : List Char} (hc : childOf n c = some n1) (he : n1.isEnd = true)
    (hbe : bEndAt (c :: rest) 1 = true) : HitP n j (c :: rest) (j + 1) := by
  refine ⟨1, le_refl 1, rfl, by simp, ⟨n1, ?_, he⟩, hbe⟩
  simp only [List.take_succ_cons, List.take_zero, walkFrom, hc]

theorem hitP_head {α : Type} {n n1 : TrieNode α} {j : Nat} {c : Char}
    {rest : List Char} (hc : childOf n c = some n1)
    (h : HitP n j (c :: rest) (j + 1)) :
    n1.isEnd = true ∧ bEndAt (c :: rest) 1 = true := by
  obtain ⟨k, hk1, hkj, hklen, ⟨n2, hw, he⟩, hbe⟩ := h
  have hk : k = 1 := by omega
  subst hk
  simp only [List.take_succ_cons, List.take_zero, walkFrom, hc] at hw
  obtain rfl := Option.some.inj hw
  exact ⟨he, hbe⟩

theorem hitP_none_of_no_child {α : Type} {n : TrieNode α} {j j' : Nat} {c : Char}
    {rest : List Char} (hc : childOf n c = none) :
    ¬ HitP n j (c :: rest) j' := by
  rintro ⟨k, hk1, hkj, hklen, ⟨n2, hw, he⟩, hbe⟩
  obtain ⟨k0, rfl⟩ : ∃ k0, k = k0 + 1 := ⟨k - 1, by omega⟩
  rw [List.take_succ_cons] at hw
  simp only [walkFrom, hc] at hw
  exact Option.noConfusion hw

/-- Unfolding lemma for one step of the inner scan loop, with the end
boundary expressed through `bEndAt`. -/
theorem scanGo_cons {α : Type} (lower : List Char) (i : Nat) (bs : Bool)
    (n : TrieNode α) (j : Nat) (c : Char) (rest : List Char)
    (best : Option (TrieMatch α)) :
    scanGo lower i bs n j (c :: rest) best =
      match childOf n c with
      | none => best
      | some n1 =>
          scanGo lower i bs n1 (j + 1) rest
            (if n1.isEnd && bs && bEndAt (c :: rest) 1 then
               some ⟨(n1.word).getD (String.mk ((lower.drop i).take (j + 1 - i))),
                     i, j + 1, n1.payload⟩
             else best) := by
  cases rest <;> rfl

theorem scanGo_false {α : Type} :
    ∀ (rest : List Char) (lower : List Char) (i : Nat) (n : TrieNode α) (j : Nat)
      (best : Option (TrieMatch α)), scanGo lower i false n j rest best = best
  | [], _, _, _, _, _ => rfl
  | c :: rest, lower, i, n, j, best => by
      rw [scanGo_cons]
      cases hc : childOf n c with
      | none => simp
      | some n1 =>
          simp only [Bool.and_false, Bool.false_and, if_false]
          exact scanGo_false rest lower i n1 (j + 1) best

/-- Full characterization of the inner scan loop with a valid start
boundary: either there is no boundary-valid terminal hit and `best` is
returned unchanged, or the result is a match at the longest hit. -/
theorem scanGo_char {α : Type} (lower : List Char) (i : Nat) :
    ∀ (rest : List Char) (n : TrieNode α) (j : Nat) (best : Option (TrieMatch α)),
      (∀ b, best = some b → b.mto ≤ j) →
      (scanGo lower i true n j rest best = best ∧ ∀ j', ¬ HitP n j rest j') ∨
      (∃ m, scanGo lower i true n j rest best = some m ∧ m.mfrom = i ∧
         HitP n j rest m.mto ∧ (∀ j', HitP n j rest j' → j' ≤ m.mto) ∧
         (∀ b, best = some b → b.mto ≤ m.mto)) := by
  intro rest
  induction rest with
  | nil =>
      intro n j best hb
      left
      refine ⟨rfl, ?_⟩
      rintro j' ⟨k, hk1, hkj, hklen, _⟩
      simp at hklen
      omega
  | cons c rest ih =>
      intro n j best hb
      cases hc : childOf n c with
      | none =>
          left
          refine ⟨?_, fun j' => hitP_none_of_no_child hc⟩
          rw [scanGo_cons]
          simp only [hc]
      | some n1 =>
          by_cases hcond : (n1.isEnd && bEndAt (c :: rest) 1) = true
          · -- the head hit is recorded
            have hstep : scanGo lower i true n j (c :: rest) best =
                scanGo lower i true n1 (j + 1) rest
                  (some ⟨(n1.word).getD
                      (String.mk ((lower.drop i).take (j + 1 - i))), i, j + 1,
                    n1.payload⟩) := by
              rw [scanGo_cons]
              simp only [hc]
              rw [show (n1.isEnd && true && bEndAt (c :: rest) 1) =
                    (n1.isEnd && bEndAt (c :: rest) 1) by
                  cases n1.isEnd <;> simp]
              rw [if_pos hcond]
            have hend : n1.isEnd = true := by
              cases hq : n1.isEnd
              · rw [hq] at hcond; simp at hcond
              · rfl
            have hbe1 : bEndAt (c :: rest) 1 = true := by
              cases hq : bEndAt (c :: rest) 1
              · rw [hq] at hcond; simp at hcond
              · rfl
            have hb1 : ∀ b, (some ⟨(n1.word).getD
                  (String.mk ((lower.drop i).take (j + 1 - i))), i, j + 1,
                  n1.payload⟩ : Option (TrieMatch α)) = some b → b.mto ≤ j + 1 := by
              intro b hbb
              obtain rfl := Option.some.inj hbb
              exact le_refl _
            rcases ih n1 (j + 1) _ hb1 with ⟨heq, hnone⟩ | ⟨m, hm, hfrom, hhit, hmax, hbnd⟩
            · right
              refine ⟨_, by rw [hstep, heq], rfl, hitP_one hc hend hbe1, ?_, ?_⟩
              · intro j' hj'
                show j' ≤ j + 1
                rcases Nat.lt_or_ge (j + 1) j' with hlt | hge
                · exact absurd (hitP_down hc hj' hlt) (hnone j')
                · exact hge
              · intro b hbb
                show b.mto ≤ j + 1
                have := hb b hbb
                omega
            · right
              refine ⟨m, by rw [hstep, hm], hfrom, hitP_up hc hhit, ?_, ?_⟩
              · intro j' hj'
                rcases Nat.lt_or_ge (j + 1) j' with hlt | hge
                · exact hmax j' (hitP_down hc hj' hlt)
                · have hm1 : j + 1 ≤ m.mto := hbnd _ rfl
                  omega
              · intro b hbb
                have h1 := hb b hbb
                have h2 : j + 1 ≤ m.mto := hbnd _ rfl
                omega
          · -- the head position records nothing
            have hstep : scanGo lower i true n j (c :: rest) best =
                scanGo lower i true n1 (j + 1) rest best := by
              rw [scanGo_cons]
              simp only [hc]
              rw [show (n1.isEnd && true && bEndAt (c :: rest) 1) =
                    (n1.isEnd && bEndAt (c :: rest) 1) by
                  cases n1.isEnd <;> simp]
              rw [if_neg (by simpa using hcond)]
            have hb1 : ∀ b, best = some b → b.mto ≤ j + 1 := by
              intro b hbb
              have := hb b hbb
              omega
            have hnohead : ∀ j', j' = j + 1 → ¬ HitP n j (c :: rest) j' := by
              rintro j' rfl hj'
              have := hitP_head hc hj'
              rw [this.1, this.2] at hcond
              simp at hcond
            rcases ih n1 (j + 1) best hb1 with ⟨heq, hnone⟩ | ⟨m, hm, hfrom, hhit, hmax, hbnd⟩
            · left
              refine ⟨by rw [hstep, heq], ?_⟩
              intro j' hj'
              rcases Nat.lt_or_ge (j + 1) j' with hlt | hge
              · exact absurd (hitP_down hc hj' hlt) (hnone j')
              · have hj1 : j' = j + 1 := by
                  obtain ⟨k, hk1, hkj, -, -, -⟩ := hj'
                  omega
                exact hnohead j' hj1 hj'
            · right
              refine ⟨m, by rw [hstep, hm], hfrom, hitP_up hc hhit, ?_, hbnd⟩
              intro j' hj'
              rcases Nat.lt_or_ge (j + 1) j' with hlt | hge
              · exact hmax j' (hitP_down hc hj' hlt)
              · have hj1 : j' = j + 1 := by
                  obtain ⟨k, hk1, hkj, -, -, -⟩ := hj'
                  omega
                exact absurd hj' (hnohead j' hj1)

theorem scanFrom_eq {α : Type} (root : TrieNode α) (lower : List Char) (i : Nat) :
    scanFrom root lower i =
      scanGo lower i (boundaryStartB lower i) root i (lower.drop i) none := by
  cases i <;> rfl

theorem scanFrom_none_of_bs_false {α : Type} (root : TrieNode α) (lower : List Char)
    (i : Nat) (hbs : boundaryStartB lower i = false) : scanFrom root lower i = none := by
  rw [scanFrom_eq, hbs]
  exact scanGo_false _ _ _ _ _ _

theorem scanFrom_some_spec {α : Type} {root : TrieNode α} {lower : List Char} {i : Nat}
    {m : TrieMatch α} (h : scanFrom root lower i = some m) :
    boundaryStartB lower i = true ∧ m.mfrom = i ∧ HitP root i (lower.drop i) m.mto ∧
    (∀ j', HitP root i (lower.drop i) j' → j' ≤ m.mto) := by
  cases hbs : boundaryStartB lower i with
  | false =>
      rw [scanFrom_none_of_bs_false root lower i hbs] at h
      exact Option.noConfusion h
  | true =>
      rw [scanFrom_eq, hbs] at h
      rcases scanGo_char lower i (lower.drop i) root i none
          (fun b hb => Option.noConfusion hb) with
        ⟨heq, _⟩ | ⟨m', hm', hfrom, hhit, hmax, _⟩
      · rw [heq] at h
        exact Option.noConfusion h
      · rw [hm'] at h
        obtain rfl := Option.some.inj h
        exact ⟨rfl, hfrom, hhit, hmax⟩

theorem scanFrom_of_hit {α : Type} {root : TrieNode α} {lower : List Char} {i j' : Nat}
    (hbs : boundaryStartB lower i = true) (hhit : HitP root i (lower.drop i) j') :
    ∃ m, scanFrom root lower i = some m ∧ j' ≤ m.mto := by
  rcases scanGo_char lower i (lower.drop i) root i none
      (fun b hb => Option.noConfusion hb) with
    ⟨_, hnone⟩ | ⟨m, hm, _, _, hmax, _⟩
  · exact absurd hhit (hnone j')
  · refine ⟨m, ?_, hmax j' hhit⟩
    rw [scanFrom_eq, hbs]
    exact hm

theorem bEndAt_eq_boundaryEndB (lower : List Char) (i k : Nat)
    (h : i + k ≤ lower.length) :
    bEndAt (lower.drop i) k = boundaryEndB lower (i + k) := by
  unfold bEndAt boundaryEndB
  rw [List.drop_drop]
  cases hd : lower.drop (i + k) with
  | nil =>
      have hlen : lower.length ≤ i + k := List.drop_eq_nil_iff.mp hd
      have heq : i + k = lower.length := by omega
      rw [if_pos heq]
  | cons d tail =>
      have hne : ¬ (i + k = lower.length) := by
        intro hq
        rw [hq, List.drop_length] at hd
        exact List.noConfusion hd
      rw [if_neg hne]
      have h0 : lower[i + k]? = some d := by
        have h1 : (lower.drop (i + k))[0]? = some d := by rw [hd]; simp
        rw [List.getElem?_drop] at h1
        simpa using h1
      rw [List.getD_eq_getElem?_getD, h0]
      rfl

theorem validHit_iff {α : Type} (t : Trie α) (text : String) (i j : Nat)
    (hi : i < (lowerChars text).length) :
    validHit t text i j = true ↔
      (boundaryStartB (lowerChars text) i = true ∧
       HitP t.root i ((lowerChars text).drop i) j) := by
  constructor
  · intro h
    simp only [validHit, Bool.and_eq_true, decide_eq_true_eq] at h
    obtain ⟨⟨⟨⟨hij, hjlen⟩, hwalk⟩, hbs⟩, hbe⟩ := h
    refine ⟨hbs, j - i, by omega, by omega, ?_, ?_, ?_⟩
    · rw [List.length_drop]; omega
    · cases hw : walkFrom t.root (((lowerChars text).drop i).take (j - i)) with
      | none => rw [hw] at hwalk; exact absurd hwalk (by simp)
      | some n =>
          refine ⟨n, rfl, ?_⟩
          rw [hw] at hwalk
          exact hwalk
    · rw [bEndAt_eq_boundaryEndB _ _ _ (by omega), show i + (j - i) = j by omega]
      exact hbe
  · rintro ⟨hbs, k, hk1, hkj, hklen, ⟨n, hw, hend⟩, hbe⟩
    rw [List.length_drop] at hklen
    simp only [validHit, Bool.and_eq_true, decide_eq_true_eq]
    refine ⟨⟨⟨⟨by omega, by omega⟩, ?_⟩, hbs⟩, ?_⟩
    · rw [show j - i = k by omega, hw]
      exact hend
    · rw [bEndAt_eq_boundaryEndB _ _ _ (by omega), show i + k = j by omega] at hbe
      exact hbe

theorem mem_findAllMatches {α : Type} {t : Trie α} {text : String} {m : TrieMatch α} :
    m ∈ findAllMatches t text ↔
      ∃ i, i ∈ List.range (lowerChars text).length ∧
        scanFrom t.root (lowerChars text) i = some m := by
  unfold findAllMatches
  simp [List.mem_filterMap]

/-! ## Claim C5: longest match per start offset -/

/-- C5: with "cat" and "category" both added, matching the text
"category" yields only the "category" match (the terminal hit for
"cat" fails the end-boundary check and is in any case superseded);
and in general every returned match is a boundary-valid terminal hit
that is longest among the boundary-valid terminal hits at its start
offset. -/
theorem findAllMatches_longest_per_start :
    (findAllMatches catCategoryTrie "category" =
       [⟨"category", 0, 8, some "def-category"⟩]) ∧
    (∀ (α : Type) (t : Trie α) (text : String) (m : TrieMatch α),
       m ∈ findAllMatches t text →
       validHit t text m.mfrom m.mto = true ∧
       ∀ j, validHit t text m.mfrom j = true → j ≤ m.mto) := by
  constructor
  · decide
  · intro α t text m hm
    rcases mem_findAllMatches.mp hm with ⟨i, hi, hsf⟩
    obtain ⟨hbs, hfrom, hhit, hmax⟩ := scanFrom_some_spec hsf
    subst hfrom
    have hilen : m.mfrom < (lowerChars text).length := List.mem_range.mp hi
    refine ⟨(validHit_iff t text m.mfrom m.mto hilen).mpr ⟨hbs, hhit⟩, ?_⟩
    intro j hj
    exact hmax j ((validHit_iff t text m.mfrom j hilen).mp hj).2

/-- Witness for C5: the single "category" match is a boundary-valid
terminal hit, and the longest-hit bound instantiated at offset 8. -/
theorem findAllMatches_longest_witness :
    validHit catCategoryTrie "category" 0 8 = true ∧ (8 : Nat) ≤ 8 :=
  ⟨(findAllMatches_longest_per_start.2 String catCategoryTrie "category"
      ⟨"category", 0, 8, some "def-category"⟩ (by decide)).1,
   (findAllMatches_longest_per_start.2 String catCategoryTrie "category"
      ⟨"category", 0, 8, some "def-category"⟩ (by decide)).2 8
     (findAllMatches_longest_per_start.2 String catCategoryTrie "category"
        ⟨"category", 0, 8, some "def-category"⟩ (by decide)).1⟩

/-! ## Claim C6: word-boundary policy -/

/-- C6: for every returned match, the character before the match start
(when it does not begin at offset 0) and the character at the match
end offset (when it does not end at the text's end) fail the
alphanumeric test; in particular, with only "cat" added the text
"concatenate" produces zero matches. -/
theorem findAllMatches_boundaries :
    (∀ (α : Type) (t : Trie α) (text : String) (m : TrieMatch α),
       m ∈ findAllMatches t text →
       (m.mfrom = 0 ∨
        isAlphaNumeric ((lowerChars text).getD (m.mfrom - 1) ' ') = false) ∧
       (m.mto = (lowerChars text).length ∨
        isAlphaNumeric ((lowerChars text).getD m.mto ' ') = false)) ∧
    findAllMatches catTrie "concatenate" = [] := by
  constructor
  · intro α t text m hm
    rcases mem_findAllMatches.mp hm with ⟨i, hi, hsf⟩
    obtain ⟨hbs, hfrom, hhit, -⟩ := scanFrom_some_spec hsf
    subst hfrom
    have hilen : m.mfrom < (lowerChars text).length := List.mem_range.mp hi
    constructor
    · cases hn : m.mfrom with
      | zero => exact Or.inl rfl
      | succ k =>
          right
          rw [hn] at hbs
          have hbs2 : (!isAlphaNumeric ((lowerChars text).getD k ' ')) = true := hbs
          simpa using hbs2
    · obtain ⟨k, hk1, hkj, hklen, -, hbe⟩ := hhit
      rw [List.length_drop] at hklen
      rw [bEndAt_eq_boundaryEndB _ _ _ (by omega),
        show m.mfrom + k = m.mto by omega] at hbe
      unfold boundaryEndB at hbe
      by_cases hq : m.mto = (lowerChars text).length
      · exact Or.inl hq
      · rw [if_neg hq] at hbe
        right
        simpa using hbe
  · decide

/-- Witness for C6: the trie with only "cat" matches "cat" inside
"a cat" at offsets [2, 5); the theorem yields the boundary facts for
this match. -/
theorem findAllMatches_boundaries_witness :
    ((2 : Nat) = 0 ∨
      isAlphaNumeric ((lowerChars "a cat").getD (2 - 1) ' ') = false) ∧
    ((5 : Nat) = (lowerChars "a cat").length ∨
      isAlphaNumeric ((lowerChars "a cat").getD 5 ' ') = false) :=
  findAllMatches_boundaries.1 String catTrie "a cat"
    ⟨"cat", 2, 5, some "def-cat"⟩ (by decide)

/-! ## Claim C10: result order -/

theorem scanFrom_mfrom {α : Type} {root : TrieNode α} {lower : List Char} {i : Nat}
    {m : TrieMatch α} (h : scanFrom root lower i = some m) : m.mfrom = i :=
  (scanFrom_some_spec h).2.1

theorem pairwise_of_filterMap {β : Type} (f : Nat → Option β) (R : β → β → Prop)
    (hf : ∀ a b x y, a < b → f a = some x → f b = some y → R x y) :
    ∀ l : List Nat, l.Pairwise (· < ·) → (l.filterMap f).Pairwise R
  | [], _ => by simp
  | a :: l, hp => by
      rcases List.pairwise_cons.mp hp with ⟨ha, hl⟩
      simp only [List.filterMap_cons]
      cases hfa : f a with
      | none => exact pairwise_of_filterMap f R hf l hl
      | some x =>
          refine List.pairwise_cons.mpr ⟨?_, pairwise_of_filterMap f R hf l hl⟩
          intro y hy
          rcases List.mem_filterMap.mp hy with ⟨b, hb, hfb⟩
          exact hf a b x y (ha b hb) hfa hfb

/-- C10: the list returned by `findAllMatches` is sorted by start
offset in strictly ascending order — in particular distinct matches
never share a start offset: at most one match per offset. -/
theorem findAllMatches_sorted (α : Type) (t : Trie α) (text : String) :
    (findAllMatches t text).Pairwise (fun m1 m2 => m1.mfrom < m2.mfrom) := by
  unfold findAllMatches
  refine pairwise_of_filterMap _ _ ?_ _ (List.pairwise_lt_range _)
  intro a b x y hab hfa hfb
  rw [scanFrom_mfrom hfa, scanFrom_mfrom hfb]
  exact hab

/-! ## Claim C7: matching a text equal to an added word -/

theorem alChildGet_setChild_self {α : Type} :
    ∀ (ch : List (Char × TrieNode α)) (c : Char) (t : TrieNode α),
      childOf.alChildGet (setChild ch c t) c = some t
  | [], c, t => by simp [setChild, childOf.alChildGet]
  | (c0, t0) :: rest, c, t => by
      by_cases h : c0 = c
      · simp [setChild, childOf.alChildGet, h]
      · simp [setChild, childOf.alChildGet, h, alChildGet_setChild_self rest c t]

theorem alChildGet_setChild_ne {α : Type} :
    ∀ (ch : List (Char × TrieNode α)) (c c' : Char) (t : TrieNode α), c ≠ c' →
      childOf.alChildGet (setChild ch c t) c' = childOf.alChildGet ch c'
  | [], c, c', t, h => by simp [setChild, childOf.alChildGet, h]
  | (c0, t0) :: rest, c, c', t, h => by
      by_cases h0 : c0 = c
      · subst h0
        simp [setChild, childOf.alChildGet, h]
      · simp only [setChild, if_neg h0]
        by_cases h1 : c0 = c'
        · simp [childOf.alChildGet, h1]
        · simp [childOf.alChildGet, h1, alChildGet_setChild_ne rest c c' t h]

theorem walkFrom_addWordAux_self {α : Type} :
    ∀ (l : List Char) (n : TrieNode α) (w : String) (p : α),
      ∃ n1, walkFrom (addWordAux n l w p) l = some n1 ∧ n1.isEnd = true
  | [], n, w, p => ⟨⟨n.children, true, some p, some w⟩, rfl, rfl⟩
  | c :: cs, n, w, p => by
      obtain ⟨n1, hw, he⟩ :=
        walkFrom_addWordAux_self cs ((childOf n c).getD TrieNode.empty) w p
      refine ⟨n1, ?_, he⟩
      show walkFrom (addWordAux n (c :: cs) w p) (c :: cs) = some n1
      simp only [addWordAux, walkFrom]
      rw [show childOf (⟨setChild n.children c
            (addWordAux ((childOf n c).getD TrieNode.empty) cs w p), n.isEnd,
            n.payload, n.word⟩ : TrieNode α) c =
          some (addWordAux ((childOf n c).getD TrieNode.empty) cs w p) from
        alChildGet_setChild_self _ _ _]
      exact hw

theorem walkFrom_addWordAux_preserve {α : Type} :
    ∀ (l : List Char) (n : TrieNode α) (lw : List Char) (w : String) (p : α)
      (n' : TrieNode α), walkFrom n l = some n' → n'.isEnd = true →
      ∃ n'', walkFrom (addWordAux n lw w p) l = some n'' ∧ n''.isEnd = true
  | [], n, lw, w, p, n', hwk, he => by
      obtain rfl := Option.some.inj hwk
      cases lw with
      | nil => exact ⟨⟨n.children, true, some p, some w⟩, rfl, rfl⟩
      | cons c cs =>
          refine ⟨addWordAux n (c :: cs) w p, rfl, ?_⟩
          show (addWordAux n (c :: cs) w p).isEnd = true
          simp only [addWordAux, TrieNode.isEnd]
          exact he
  | c :: cs, n, lw, w, p, n', hwk, he => by
      cases hm : childOf n c with
      | none =>
          simp only [walkFrom, hm] at hwk
          exact Option.noConfusion hwk
      | some m =>
          simp only [walkFrom, hm] at hwk
          cases lw with
          | nil =>
              refine ⟨n', ?_, he⟩
              simp only [addWordAux, walkFrom]
              rw [show childOf (⟨n.children, true, some p, some w⟩ : TrieNode α) c =
                  some m from hm]
              exact hwk
          | cons c0 cs0 =>
              by_cases hcc : c0 = c
              · subst hcc
                have hchild : (childOf n c0).getD TrieNode.empty = m := by
                  rw [hm]; rfl
                obtain ⟨n'', hw2, he2⟩ :=
                  walkFrom_addWordAux_preserve cs m cs0 w p n' hwk he
                refine ⟨n'', ?_, he2⟩
                simp only [addWordAux, walkFrom]
                rw [show childOf (⟨setChild n.children c0
                      (addWordAux ((childOf n c0).getD TrieNode.empty) cs0 w p),
                      n.isEnd, n.payload, n.word⟩ : TrieNode α) c0 =
                    some (addWordAux ((childOf n c0).getD TrieNode.empty) cs0 w p) from
                  alChildGet_setChild_self _ _ _]
                rw [hchild]
                exact hw2
              · refine ⟨n', ?_, he⟩
                simp only [addWordAux, walkFrom]
                rw [show childOf (⟨setChild n.children c0
                      (addWordAux ((childOf n c0).getD TrieNode.empty) cs0 w p),
                      n.isEnd, n.payload, n.word⟩ : TrieNode α) c =
                    some m from by
                  rw [← hm]
                  exact alChildGet_setChild_ne n.children c0 c _ hcc]
                exact hwk

theorem hasWord_addWord_self {α : Type} (t : Trie α) (w : String) (p : α) :
    hasWord (addWord t w p) w = true := by
  obtain ⟨n1, hw, he⟩ := walkFrom_addWordAux_self (lowerChars w) t.root w p
  unfold hasWord addWord
  rw [hw]
  exact he

theorem hasWord_addWord_preserve {α : Type} (t : Trie α) (v w : String) (p : α)
    (h : hasWord t v = true) : hasWord (addWord t w p) v = true := by
  unfold hasWord at h
  cases hw : walkFrom t.root (lowerChars v) with
  | none => rw [hw] at h; exact absurd h (by simp)
  | some n =>
      rw [hw] at h
      obtain ⟨n'', hw2, he2⟩ :=
        walkFrom_addWordAux_preserve (lowerChars v) t.root (lowerChars w) w p n hw h
      unfold hasWord addWord
      rw [hw2]
      exact he2

/-- C7 counterexample: 가나 and 나 are both added via `addWord` (the
Hangul script never passes the `/[a-z0-9]/i` boundary test, so the
inner start offset also matches); the text equal to the added word
가나 yields TWO matches, not exactly one. -/
theorem findAllMatches_exact_text_counterexample :
    hasWord hangulPairTrie "가나" = true ∧
    findAllMatches hangulPairTrie "가나" =
      [⟨"가나", 0, 2, some "d1"⟩, ⟨"나", 1, 2, some "d2"⟩] :=
  ⟨by decide, by decide⟩

/-- C7 amended: for a nonempty word W whose characters are all
alphanumeric, if W is stored in the trie (as `addWord` guarantees, see
`hasWord_addWord_self` and `hasWord_addWord_preserve`), then
`findAllMatches` on the text equal to W returns exactly one match,
spanning offsets [0, length W).  For words with non-alphanumeric
characters the word-boundary check can admit further matches inside W
(see the counterexample), and the empty word is never matched. -/
theorem findAllMatches_exact_text (α : Type) (t : Trie α) (w : String)
    (hw : hasWord t w = true) (hne : lowerChars w ≠ [])
    (halnum : ∀ c ∈ lowerChars w, isAlphaNumeric c = true) :
    ∃ m, findAllMatches t w = [m] ∧ m.mfrom = 0 ∧ m.mto = (lowerChars w).length := by
  have hlen0 : 0 < (lowerChars w).length := List.length_pos.mpr hne
  have hwalk : ∃ n, walkFrom t.root (lowerChars w) = some n ∧ n.isEnd = true := by
    unfold hasWord at hw
    cases hq : walkFrom t.root (lowerChars w) with
    | none => rw [hq] at hw; exact absurd hw (by simp)
    | some n =>
        rw [hq] at hw
        exact ⟨n, rfl, hw⟩
  obtain ⟨n, hn, hend⟩ := hwalk
  have hhit : HitP t.root 0 ((lowerChars w).drop 0) (lowerChars w).length := by
    refine ⟨(lowerChars w).length, hlen0, by omega, by simp, ⟨n, ?_, hend⟩, ?_⟩
    · simpa using hn
    · unfold bEndAt
      simp
  obtain ⟨m, hsf, hle⟩ := scanFrom_of_hit
    (show boundaryStartB (lowerChars w) 0 = true from rfl) hhit
  obtain ⟨-, hfrom, hhit', -⟩ := scanFrom_some_spec hsf
  have hmto : m.mto = (lowerChars w).length := by
    obtain ⟨k, hk1, hkj, hklen, -, -⟩ := hhit'
    rw [List.length_drop] at hklen
    omega
  have hnone : ∀ i, i ∈ List.range ((lowerChars w).length - 1) →
      scanFrom t.root (lowerChars w) (i + 1) = none := by
    intro i hi
    have hik : i < (lowerChars w).length := by
      have := List.mem_range.mp hi
      omega
    apply scanFrom_none_of_bs_false
    obtain ⟨c, hc⟩ : ∃ c, (lowerChars w)[i]? = some c := by
      rw [List.getElem?_eq_getElem hik]
      exact ⟨_, rfl⟩
    have hcm : c ∈ lowerChars w := List.getElem?_mem hc
    have hgd : (lowerChars w).getD i ' ' = c := by
      rw [List.getD_eq_getElem?_getD, hc]
      rfl
    show (!isAlphaNumeric ((lowerChars w).getD i ' ')) = false
    rw [hgd, halnum c hcm]
    rfl
  refine ⟨m, ?_, hfrom, hmto⟩
  show (List.range (lowerChars w).length).filterMap
      (scanFrom t.root (lowerChars w)) = [m]
  obtain ⟨len1, hlen1⟩ : ∃ len1, (lowerChars w).length = len1 + 1 :=
    ⟨(lowerChars w).length - 1, by omega⟩
  rw [hlen1, List.range_succ_eq_map, List.filterMap_cons]
  rw [show scanFrom t.root (lowerChars w) 0 = some m from hsf]
  have hrest : ((List.range len1).map Nat.succ).filterMap
      (scanFrom t.root (lowerChars w)) = [] := by
    rw [List.filterMap_map]
    rw [List.filterMap_eq_nil_iff]
    intro a ha
    have ha2 : a ∈ List.range ((lowerChars w).length - 1) := by
      rw [hlen1]
      simpa using ha
    exact hnone a ha2
  rw [hrest]

/-- Witness for C7 amended: applying the theorem to the trie holding
only "cat" and the text "cat" gives exactly one match spanning [0, 3). -/
theorem findAllMatches_exact_text_witness :
    (findAllMatches catTrie "cat").length = 1 ∧
    (findAllMatches catTrie "cat").map (fun m => (m.mfrom, m.mto)) = [(0, 3)] := by
  obtain ⟨m, hEq, hfrom, hto⟩ :=
    findAllMatches_exact_text String catTrie "cat" (by decide) (by decide) (by decide)
  rw [hEq]
  constructor
  · rfl
  · simp only [List.map_cons, List.map_nil, hfrom, hto]
    rfl

/-! ## Claim C1: removal and the global index -/

theorem alGet_eq_none_of_not_mem_keys {β : Type} :
    ∀ (l : List (String × β)) (k : String), k ∉ l.map Prod.fst → alGet l k = none
  | [], k, h => rfl
  | (k0, v0) :: t, k, h => by
      by_cases h0 : k0 = k
      · subst h0
        exact absurd (show k0 ∈ List.map Prod.fst ((k0, v0) :: t) from
          List.mem_cons_self _ _) h
      · simp only [alGet, if_neg h0]
        apply alGet_eq_none_of_not_mem_keys t k
        intro hm
        exact h (List.mem_cons_of_mem _ hm)

theorem mem_alDel_of_ne {β : Type} :
    ∀ (l : List (String × β)) (k : String) (p : String × β),
      p ∈ l → p.1 ≠ k → p ∈ alDel l k
  | [], k, p, h, hne => by simp at h
  | (k0, v0) :: t, k, p, h, hne => by
      by_cases h0 : k0 = k
      · simp only [alDel, if_pos h0]
        rcases List.mem_cons.mp h with h1 | h1
        · exact absurd (show p.1 = k by rw [h1]; exact h0) hne
        · exact mem_alDel_of_ne t k p h1 hne
      · simp only [alDel, if_neg h0]
        rcases List.mem_cons.mp h with h1 | h1
        · exact h1 ▸ List.mem_cons_self _ _
        · exact List.mem_cons_of_mem _ (mem_alDel_of_ne t k p h1 hne)

theorem mem_lookupSurf_removeContrib :
    ∀ (em g : MorphIdx), nodupKeys em → ∀ b x,
      (x ∈ lookupSurf (removeContrib g em) b ↔
        (x ∈ lookupSurf g b ∧ x ∉ lookupSurf em b))
  | [], g, hn, b, x => by
      simp [removeContrib, lookupSurf, alGet]
  | (b0, infls) :: rest, g, hn, b, x => by
      have hn' : nodupKeys rest := (List.nodup_cons.mp hn).2
      have hb0 : b0 ∉ rest.map Prod.fst := (List.nodup_cons.mp hn).1
      have hrest0 : alGet rest b0 = none := alGet_eq_none_of_not_mem_keys rest b0 hb0
      cases hg : alGet g b0 with
      | none =>
          have hred : removeContrib g ((b0, infls) :: rest) = removeContrib g rest := by
            simp only [removeContrib, List.foldl_cons, hg]
          rw [hred, mem_lookupSurf_removeContrib rest g hn' b x]
          by_cases hbb : b = b0
          · subst hbb
            have h2 : lookupSurf g b = [] := by simp [lookupSurf, hg]
            have h3 : lookupSurf ((b, infls) :: rest) b = infls := by
              simp [lookupSurf, alGet]
            rw [h2, h3]
            simp
          · have h3 : lookupSurf ((b0, infls) :: rest) b = lookupSurf rest b := by
              simp [lookupSurf, alGet, show ¬ (b0 = b) from fun hq => hbb hq.symm]
            rw [h3]
      | some gi =>
          by_cases hz : (infls.foldl setDel gi).length = 0
          · have hred : removeContrib g ((b0, infls) :: rest) =
                removeContrib (alDel g b0) rest := by
              simp only [removeContrib, List.foldl_cons, hg]
              rw [if_pos hz]
            rw [hred, mem_lookupSurf_removeContrib rest (alDel g b0) hn' b x]
            have hempty : ∀ y, y ∈ gi → y ∈ infls := by
              intro y hy
              by_contra hni
              have hmem : y ∈ infls.foldl setDel gi :=
                (mem_foldl_setDel infls gi y).mpr ⟨hy, hni⟩
              have := List.ne_nil_of_mem hmem
              exact this (List.eq_nil_of_length_eq_zero hz)
            by_cases hbb : b = b0
            · subst hbb
              have h1 : lookupSurf (alDel g b) b = [] := by
                simp [lookupSurf, alGet_alDel_self]
              have h2 : lookupSurf g b = gi := by simp [lookupSurf, hg]
              have h3 : lookupSurf ((b, infls) :: rest) b = infls := by
                simp [lookupSurf, alGet]
              rw [h1, h2, h3]
              constructor
              · rintro ⟨h4, -⟩
                exact absurd h4 (List.not_mem_nil x)
              · rintro ⟨h4, h5⟩
                exact absurd (hempty x h4) h5
            · have h1 : lookupSurf (alDel g b0) b = lookupSurf g b := by
                simp [lookupSurf, alGet_alDel_ne g b0 b (fun hq => hbb hq.symm)]
              have h3 : lookupSurf ((b0, infls) :: rest) b = lookupSurf rest b := by
                simp [lookupSurf, alGet, show ¬ (b0 = b) from fun hq => hbb hq.symm]
              rw [h1, h3]
          · have hred : removeContrib g ((b0, infls) :: rest) =
                removeContrib (alSet g b0 (infls.foldl setDel gi)) rest := by
              simp only [removeContrib, List.foldl_cons, hg]
              rw [if_neg hz]
            rw [hred, mem_lookupSurf_removeContrib rest _ hn' b x]
            by_cases hbb : b = b0
            · subst hbb
              have h1 : lookupSurf (alSet g b (infls.foldl setDel gi)) b =
                  infls.foldl setDel gi := by
                simp [lookupSurf, alGet_alSet_self]
              have h2 : lookupSurf g b = gi := by simp [lookupSurf, hg]
              have h3 : lookupSurf ((b, infls) :: rest) b = infls := by
                simp [lookupSurf, alGet]
              have h4 : lookupSurf rest b = [] := by simp [lookupSurf, hrest0]
              rw [h1, h2, h3, h4]
              rw [mem_foldl_setDel]
              simp
            · have h1 : lookupSurf (alSet g b0 (infls.foldl setDel gi)) b =
                  lookupSurf g b := by
                simp [lookupSurf, alGet_alSet_ne g b0 b _ (fun hq => hbb hq.symm)]
              have h3 : lookupSurf ((b0, infls) :: rest) b = lookupSurf rest b := by
                simp [lookupSurf, alGet, show ¬ (b0 = b) from fun hq => hbb hq.symm]
              rw [h1, h3]

theorem mem_lookupSurf_addContrib :
    ∀ (em g : MorphIdx), nodupKeys em → ∀ b x,
      (x ∈ lookupSurf (addContrib g em) b ↔
        (x ∈ lookupSurf g b ∨ x ∈ lookupSurf em b))
  | [], g, hn, b, x => by
      simp [addContrib, lookupSurf, alGet]
  | (b0, infls) :: rest, g, hn, b, x => by
      have hn' : nodupKeys rest := (List.nodup_cons.mp hn).2
      have hb0 : b0 ∉ rest.map Prod.fst := (List.nodup_cons.mp hn).1
      have hrest0 : alGet rest b0 = none := alGet_eq_none_of_not_mem_keys rest b0 hb0
      have hred : addContrib g ((b0, infls) :: rest) =
          addContrib (alSet g b0 (infls.foldl setAdd ((alGet g b0).getD []))) rest := by
        simp only [addContrib, List.foldl_cons]
      rw [hred, mem_lookupSurf_addContrib rest _ hn' b x]
      by_cases hbb : b = b0
      · subst hbb
        have h1 : lookupSurf (alSet g b (infls.foldl setAdd ((alGet g b).getD []))) b =
            infls.foldl setAdd ((alGet g b).getD []) := by
          simp [lookupSurf, alGet_alSet_self]
        have h3 : lookupSurf ((b, infls) :: rest) b = infls := by
          simp [lookupSurf, alGet]
        have h4 : lookupSurf rest b = [] := by simp [lookupSurf, hrest0]
        rw [h1, h3, h4]
        rw [mem_foldl_setAdd]
        show ((x ∈ (alGet g b).getD [] ∨ x ∈ infls) ∨ x ∈ ([] : List String)) ↔
          (x ∈ (alGet g b).getD [] ∨ x ∈ infls)
        simp
      · have h1 : lookupSurf (alSet g b0 (infls.foldl setAdd ((alGet g b0).getD []))) b =
            lookupSurf g b := by
          simp [lookupSurf, alGet_alSet_ne g b0 b _ (fun hq => hbb hq.symm)]
        have h3 : lookupSurf ((b0, infls) :: rest) b = lookupSurf rest b := by
          simp [lookupSurf, alGet, show ¬ (b0 = b) from fun hq => hbb hq.symm]
        rw [h1, h3]

theorem mem_lookupSurf_foldAdd :
    ∀ (es : List (String × NoteIndexData)) (g : MorphIdx),
      (∀ p e, (p, e) ∈ es → nodupKeys e.morphologyIndex) → ∀ b x,
      (x ∈ lookupSurf (es.foldl (fun g2 pe => addContrib g2 pe.2.morphologyIndex) g) b ↔
        (x ∈ lookupSurf g b ∨
         ∃ p e, (p, e) ∈ es ∧ x ∈ lookupSurf e.morphologyIndex b))
  | [], g, hwf, b, x => by simp
  | (p0, e0) :: rest, g, hwf, b, x => by
      rw [List.foldl_cons]
      rw [mem_lookupSurf_foldAdd rest _
        (fun p e h => hwf p e (List.mem_cons_of_mem _ h)) b x]
      rw [mem_lookupSurf_addContrib e0.morphologyIndex g
        (hwf p0 e0 (List.mem_cons_self _ _)) b x]
      constructor
      · rintro ((hg | he) | ⟨p, e, hm, hx⟩)
        · exact Or.inl hg
        · exact Or.inr ⟨p0, e0, List.mem_cons_self _ _, he⟩
        · exact Or.inr ⟨p, e, List.mem_cons_of_mem _ hm, hx⟩
      · rintro (hg | ⟨p, e, hm, hx⟩)
        · exact Or.inl (Or.inl hg)
        · rcases List.mem_cons.mp hm with h1 | h1
          · cases h1
            exact Or.inl (Or.inr hx)
          · exact Or.inr ⟨p, e, h1, hx⟩

/-- The three possible outcomes of `indexNote`. -/
theorem indexNote_cases (s : MIMState) (path : String) (mtime : Nat) (idx : MorphIdx) :
    (indexNote s path mtime idx = s) ∨
    (∃ e, alGet s.noteIndexes path = some e ∧ ¬ e.lastModified = mtime ∧
       s.isEnabled = true ∧
       indexNote s path mtime idx =
         { s with analyzeCalls := s.analyzeCalls + 1,
                  noteIndexes := alSet s.noteIndexes path ⟨path, mtime, idx⟩,
                  globalIndex :=
                    addContrib (removeContrib s.globalIndex e.morphologyIndex) idx }) ∨
    (alGet s.noteIndexes path = none ∧ s.isEnabled = true ∧
       indexNote s path mtime idx =
         { s with analyzeCalls := s.analyzeCalls + 1,
                  noteIndexes := alSet s.noteIndexes path ⟨path, mtime, idx⟩,
                  globalIndex := addContrib s.globalIndex idx }) := by
  by_cases he : s.isEnabled = false
  · left
    simp [indexNote, indexNoteAwaited, he]
  · have he2 : s.isEnabled = true := by
      revert he; cases s.isEnabled <;> simp
    cases hg : alGet s.noteIndexes path with
    | some e =>
        by_cases hm : e.lastModified = mtime
        · left
          simp [indexNote, indexNoteAwaited, he2, hg, hm]
        · right; left
          exact ⟨e, rfl, hm, he2, by simp [indexNote, indexNoteAwaited, he2, hg, hm]⟩
    | none =>
        right; right
        exact ⟨rfl, he2, by simp [indexNote, indexNoteAwaited, he2, hg]⟩

/-- Every reachable manager state satisfies the structural invariant:
the global index is contained in the union of the stored entries. -/
theorem mimReachable_inv {s : MIMState} (hs : MIMReachable s) : MIMInv s := by
  induction hs with
  | init =>
      refine ⟨?_, ?_, ?_⟩
      · intro b x hx
        simp [MIMState.init, lookupSurf, alGet] at hx
      · intro p e h
        simp [MIMState.init] at h
      · simp [MIMState.init, nodupKeys]
  | step hr hstep ih =>
      obtain ⟨inv1, inv2, inv3⟩ := ih
      rename_i s s'
      cases hstep with
      | index path mtime idx hidx =>
          rcases indexNote_cases s path mtime idx with heq | ⟨e, hg, hm, he, heq⟩ |
            ⟨hg, he, heq⟩
          · rw [heq]
            exact ⟨inv1, inv2, inv3⟩
          · rw [heq]
            have hnde : nodupKeys e.morphologyIndex := inv2 path e (alGet_mem _ _ _ hg)
            refine ⟨?_, ?_, ?_⟩
            · intro b x hx
              rw [mem_lookupSurf_addContrib idx _ hidx b x] at hx
              rcases hx with hx | hx
              · rw [mem_lookupSurf_removeContrib e.morphologyIndex _ hnde b x] at hx
                obtain ⟨hxg, hxe⟩ := hx
                obtain ⟨p2, e2, hm2, hx2⟩ := inv1 b x hxg
                by_cases hp : p2 = path
                · subst hp
                  have : e2 = e := eq_of_mem_nodupKeys _ _ _ _ inv3 hm2 hg
                  subst this
                  exact absurd hx2 hxe
                · exact ⟨p2, e2, mem_alSet_of_mem_ne _ _ _ _ hm2 hp, hx2⟩
              · exact ⟨path, ⟨path, mtime, idx⟩, self_mem_alSet _ _ _, hx⟩
            · intro p e2 hmem
              rcases mem_alSet _ _ _ _ hmem with h1 | h1
              · cases h1
                exact hidx
              · exact inv2 p e2 h1
            · exact nodupKeys_alSet _ _ _ inv3
          · rw [heq]
            refine ⟨?_, ?_, ?_⟩
            · intro b x hx
              rw [mem_lookupSurf_addContrib idx _ hidx b x] at hx
              rcases hx with hx | hx
              · obtain ⟨p2, e2, hm2, hx2⟩ := inv1 b x hx
                by_cases hp : p2 = path
                · subst hp
                  have := alGet_isSome_of_mem _ _ _ hm2
                  rw [hg] at this
                  exact absurd this (by simp)
                · exact ⟨p2, e2, mem_alSet_of_mem_ne _ _ _ _ hm2 hp, hx2⟩
              · exact ⟨path, ⟨path, mtime, idx⟩, self_mem_alSet _ _ _, hx⟩
            · intro p e2 hmem
              rcases mem_alSet _ _ _ _ hmem with h1 | h1
              · cases h1
                exact hidx
              · exact inv2 p e2 h1
            · exact nodupKeys_alSet _ _ _ inv3
      | remove path =>
          unfold removeNoteIndex
          cases hg : alGet s.noteIndexes path with
          | none => exact ⟨inv1, inv2, inv3⟩
          | some e =>
              have hnde : nodupKeys e.morphologyIndex := inv2 path e (alGet_mem _ _ _ hg)
              refine ⟨?_, ?_, ?_⟩
              · intro b x hx
                rw [mem_lookupSurf_removeContrib e.morphologyIndex _ hnde b x] at hx
                obtain ⟨hxg, hxe⟩ := hx
                obtain ⟨p2, e2, hm2, hx2⟩ := inv1 b x hxg
                by_cases hp : p2 = path
                · subst hp
                  have : e2 = e := eq_of_mem_nodupKeys _ _ _ _ inv3 hm2 hg
                  subst this
                  exact absurd hx2 hxe
                · exact ⟨p2, e2, mem_alDel_of_ne _ _ _ hm2 hp, hx2⟩
              · intro p e2 hmem
                exact inv2 p e2 (mem_alDel _ _ _ hmem).1
              · exact nodupKeys_alDel _ _ inv3
      | enable b =>
          unfold setEnabled clearAllIndexes
          by_cases hb : b = false
          · rw [if_pos hb]
            refine ⟨?_, ?_, ?_⟩
            · intro b2 x hx
              simp [lookupSurf, alGet] at hx
            · intro p e h
              simp at h
            · simp [nodupKeys]
          · rw [if_neg hb]
            exact ⟨inv1, inv2, inv3⟩
      | rebuild =>
          unfold rebuildGlobalIndex
          refine ⟨?_, inv2, inv3⟩
          intro b x hx
          have := (mem_lookupSurf_foldAdd s.noteIndexes [] inv2 b x).mp hx
          rcases this with h1 | h1
          · simp [lookupSurf, alGet] at h1
          · exact h1
      | clear =>
          unfold clearAllIndexes
          refine ⟨?_, ?_, ?_⟩
          · intro b x hx
            simp [lookupSurf, alGet] at hx
          · intro p e h
            simp at h
          · simp [nodupKeys]

/-- C1 counterexample: notes a.md and b.md both contribute the surface
해요 under the base form 하다; after `removeNoteIndex "a.md"` the
surface shared with the still-indexed b.md is gone from the
GlobalIndex (which is now empty and no longer equal to the union of
the stored entries). -/
theorem removeNote_shared_surface_counterexample :
    MIMReachable mimRemoved ∧
    (alGet mimRemoved.noteIndexes "b.md" =
      some ⟨"b.md", 1, [("하다", ["해요"])]⟩) ∧
    mimRemoved.globalIndex = [] := by
  refine ⟨?_, by decide, by decide⟩
  have h1 : MIMReachable mimA :=
    MIMReachable.step MIMReachable.init
      (MIMStep.index MIMState.init "a.md" 1 [("하다", ["해요"])] (by unfold nodupKeys; decide))
  have h2 : MIMReachable mimB :=
    MIMReachable.step h1
      (MIMStep.index mimA "b.md" 1 [("하다", ["해요"])] (by unfold nodupKeys; decide))
  exact MIMReachable.step h2 (MIMStep.remove mimB "a.md")

/-- C1 amended: on every reachable index state, `removeNoteIndex id`
deletes the stored entry for id and removes from the GlobalIndex every
surface that id contributed under its base forms — including surfaces
shared with other still-indexed documents, so in particular no surface
contributed exclusively by id remains, but shared surfaces are removed
as well.  Of the union property only containment survives: the
GlobalIndex is always a subset of the union of the stored entries'
local maps, with equality restorable via `rebuildGlobalIndex`. -/
theorem removeNoteIndex_spec (s : MIMState) (hs : MIMReachable s) :
    (∀ b x, x ∈ lookupSurf s.globalIndex b →
       ∃ p e, (p, e) ∈ s.noteIndexes ∧ x ∈ lookupSurf e.morphologyIndex b) ∧
    (∀ path e, alGet s.noteIndexes path = some e →
       alGet (removeNoteIndex s path).noteIndexes path = none ∧
       (∀ b x, x ∈ lookupSurf (removeNoteIndex s path).globalIndex b ↔
          (x ∈ lookupSurf s.globalIndex b ∧
           x ∉ lookupSurf e.morphologyIndex b))) := by
  obtain ⟨inv1, inv2, inv3⟩ := mimReachable_inv hs
  refine ⟨inv1, ?_⟩
  intro path e hg
  have hnde : nodupKeys e.morphologyIndex := inv2 path e (alGet_mem _ _ _ hg)
  constructor
  · unfold removeNoteIndex
    rw [hg]
    exact alGet_alDel_self _ _
  · intro b x
    unfold removeNoteIndex
    rw [hg]
    exact mem_lookupSurf_removeContrib e.morphologyIndex _ hnde b x

/-- Witness for C1 amended: removing a.md from the two-note state
deletes its entry, and 해요 is absent from the new GlobalIndex exactly
because it was part of a.md's contribution (evaluated concretely). -/
theorem removeNoteIndex_spec_witness :
    alGet (removeNoteIndex mimB "a.md").noteIndexes "a.md" = none ∧
    ("해요" ∈ lookupSurf (removeNoteIndex mimB "a.md").globalIndex "하다" ↔
      ("해요" ∈ lookupSurf mimB.globalIndex "하다" ∧
       "해요" ∉ lookupSurf [("하다", ["해요"])] "하다")) :=
  ⟨((removeNoteIndex_spec mimB
      (MIMReachable.step
        (MIMReachable.step MIMReachable.init
          (MIMStep.index MIMState.init "a.md" 1 [("하다", ["해요"])] (by unfold nodupKeys; decide)))
        (MIMStep.index mimA "b.md" 1 [("하다", ["해요"])] (by unfold nodupKeys; decide)))).2
      "a.md" ⟨"a.md", 1, [("하다", ["해요"])]⟩ (by decide)).1,
   ((removeNoteIndex_spec mimB
      (MIMReachable.step
        (MIMReachable.step MIMReachable.init
          (MIMStep.index MIMState.init "a.md" 1 [("하다", ["해요"])] (by unfold nodupKeys; decide)))
        (MIMStep.index mimA "b.md" 1 [("하다", ["해요"])] (by unfold nodupKeys; decide)))).2
      "a.md" ⟨"a.md", 1, [("하다", ["해요"])]⟩ (by decide)).2 "하다" "해요"⟩

/-! ## C2: cache atomicity of the vocabulary manager -/

theorem isSome_alGet_alSet {β : Type} (l : List (String × β)) (k w : String) (v : β)
    (h : (alGet l w).isSome = true) : (alGet (alSet l k v) w).isSome = true := by
  by_cases hq : k = w
  · subst hq; rw [alGet_alSet_self]; rfl
  · rw [alGet_alSet_ne l k w v hq]; exact h

theorem foldl_rebuildStepDef_inv :
    ∀ (defs : List WordDefinition) (c : List (String × WordDefinition))
      (aw bw : List String),
      (∀ w, w ∈ aw ↔ (alGet c w).isSome = true) →
      ∀ w, w ∈ (defs.foldl rebuildStepDef (c, aw, bw)).2.1 ↔
        (alGet (defs.foldl rebuildStepDef (c, aw, bw)).1 w).isSome = true
  | [], _, _, _, hinv => hinv
  | d :: defs, c, aw, bw, hinv => by
      rw [List.foldl_cons]
      exact foldl_rebuildStepDef_inv defs _ _ _ (by
        intro w
        rw [mem_setAdd]
        constructor
        · rintro (hw | rfl)
          · exact isSome_alGet_alSet c _ w d ((hinv w).mp hw)
          · rw [alGet_alSet_self]; rfl
        · intro hw
          by_cases hq : w = normalizeWord d.word
          · exact Or.inr hq
          · rw [alGet_alSet_ne c _ w d (fun hh => hq hh.symm)] at hw
            exact Or.inl ((hinv w).mpr hw))

theorem foldl_rebuildStepBook_inv :
    ∀ (books : List (String × List WordDefinition))
      (c : List (String × WordDefinition)) (aw : List String)
      (bwc : List (String × List String)),
      (∀ w, w ∈ aw ↔ (alGet c w).isSome = true) →
      ∀ w, w ∈ (books.foldl rebuildStepBook (c, aw, bwc)).2.1 ↔
        (alGet (books.foldl rebuildStepBook (c, aw, bwc)).1 w).isSome = true
  | [], _, _, _, hinv => hinv
  | bp :: books, c, aw, bwc, hinv => by
      rw [List.foldl_cons]
      exact foldl_rebuildStepBook_inv books _ _ _
        (foldl_rebuildStepDef_inv bp.2 c aw [] hinv)

theorem rebuildCache_exact (s : VMState) :
    (rebuildCache s).cacheValid = true ∧
    ∀ w, w ∈ (rebuildCache s).allWordsCache ↔
      (alGet (rebuildCache s).wordDefinitionCache w).isSome = true := by
  refine ⟨rfl, ?_⟩
  show ∀ w, w ∈ (s.definitions.foldl rebuildStepBook ([], [], [])).2.1 ↔
    (alGet (s.definitions.foldl rebuildStepBook ([], [], [])).1 w).isSome = true
  exact foldl_rebuildStepBook_inv s.definitions [] [] [] (by intro w; simp [alGet])

theorem getDefinitionStep_state (s : VMState) (word : String) (visited : List String) :
    (getDefinitionStep s word visited).2 = s ∨
    (∃ nw d, (getDefinitionStep s word visited).2 =
       { s with wordDefinitionCache := alSet s.wordDefinitionCache nw d }) ∨
    (getDefinitionStep s word visited).2 = rebuildCache s ∨
    (∃ nw d, (getDefinitionStep s word visited).2 =
       { rebuildCache s with wordDefinitionCache :=
           (alSet (rebuildCache s).wordDefinitionCache nw d) }) := by
  by_cases hv : normalizeWord word ∈ visited
  · exact Or.inl (by simp [getDefinitionStep, hv])
  · by_cases hc : s.cacheValid = true
    · cases hg : alGet s.wordDefinitionCache (normalizeWord word) with
      | some d => exact Or.inl (by simp [getDefinitionStep, hv, hc, hg])
      | none =>
          cases hf : findDefInBooks s.definitions (normalizeWord word) with
          | some d =>
              exact Or.inr (Or.inl ⟨normalizeWord word, d,
                by simp [getDefinitionStep, hv, hc, hg, fullSearch, hf]⟩)
          | none =>
              exact Or.inl (by simp [getDefinitionStep, hv, hc, hg, fullSearch, hf])
    · cases hg : alGet (rebuildCache s).wordDefinitionCache (normalizeWord word) with
      | some d =>
          exact Or.inr (Or.inr (Or.inl (by simp [getDefinitionStep, hv, hc, hg])))
      | none =>
          cases hf : findDefInBooks (rebuildCache s).definitions (normalizeWord word) with
          | some d =>
              exact Or.inr (Or.inr (Or.inr ⟨normalizeWord word, d,
                by simp [getDefinitionStep, hv, hc, hg, fullSearch, hf]⟩))
          | none =>
              exact Or.inr (Or.inr (Or.inl
                (by simp [getDefinitionStep, hv, hc, hg, fullSearch, hf])))

theorem vminv_addkey (s : VMState) (nw : String) (d : WordDefinition) (h : VMInv s) :
    VMInv { s with wordDefinitionCache := alSet s.wordDefinitionCache nw d } := by
  intro hc w hw
  exact isSome_alGet_alSet _ _ _ _ (h hc w hw)

theorem vminv_rebuild (s : VMState) : VMInv (rebuildCache s) := by
  intro hc w hw
  exact ((rebuildCache_exact s).2 w).mp hw

theorem vminv_getDefStep (s : VMState) (word : String) (visited : List String)
    (h : VMInv s) : VMInv (getDefinitionStep s word visited).2 := by
  rcases getDefinitionStep_state s word visited with h1 | ⟨nw, d, h1⟩ | h1 | ⟨nw, d, h1⟩
  · rw [h1]; exact h
  · rw [h1]; exact vminv_addkey s nw d h
  · rw [h1]; exact vminv_rebuild s
  · rw [h1]; exact vminv_addkey (rebuildCache s) nw d (vminv_rebuild s)

theorem vmReachable_cache_inv {s : VMState} (hs : VMReachable s) : VMInv s := by
  induction hs with
  | init => intro hc; simp [VMState.init] at hc
  | step hr hstep ih =>
      rename_i s s'
      cases hstep with
      | load path defs =>
          intro hc
          simp [loadVocabularyBook, invalidateCache] at hc
      | rebuild => exact vminv_rebuild s
      | invalidate => intro hc; simp [invalidateCache] at hc
      | getDef word visited => exact vminv_getDefStep s word visited ih
      | morph nw baseForm visited hk =>
          unfold morphResolve
          by_cases hq : baseForm = nw
          · rw [if_pos hq]; exact ih
          · rw [if_neg hq]
            show VMInv (match (getDefinitionStep s baseForm (nw :: visited)).1 with
              | some d =>
                  { (getDefinitionStep s baseForm (nw :: visited)).2 with
                    wordDefinitionCache :=
                      (alSet (getDefinitionStep s baseForm
                        (nw :: visited)).2.wordDefinitionCache nw d) }
              | none => (getDefinitionStep s baseForm (nw :: visited)).2)
            cases hr2 : (getDefinitionStep s baseForm (nw :: visited)).1 with
            | some d =>
                exact vminv_addkey _ nw d (vminv_getDefStep s baseForm (nw :: visited) ih)
            | none => exact vminv_getDefStep s baseForm (nw :: visited) ih
      | add path d => intro hc; simp [addWordToMemoryCache] at hc
      | update path nodeId d =>
          unfold updateWordInMemoryCache
          split
          · exact ih
          · split
            · exact ih
            · split
              · exact ih
              · intro hc; simp at hc
      | delete path nodeId =>
          unfold deleteWordFromMemoryCache
          split
          · exact ih
          · split
            · exact ih
            · split
              · exact ih
              · intro hc; simp at hc
      | clear => intro hc; simp [clearVM, invalidateCache] at hc

/-- C2 counterexample: the asynchronous morphology callback of
`getDefinition` caches a surface-form key without touching
`allWordsCache` and without invalidating the cache, so the reachable
state `vmAfterMorph` has a valid cache in which the
`wordDefinitionCache` key 먹었어요 is absent from `allWordsCache`, and
a `getDefinition` call observes exactly that state. -/
theorem morph_callback_cache_asymmetry_counterexample :
    VMReachable vmAfterMorph ∧
    vmAfterMorph.cacheValid = true ∧
    (alGet vmAfterMorph.wordDefinitionCache "먹었어요").isSome = true ∧
    "먹었어요" ∉ vmAfterMorph.allWordsCache ∧
    (getDefinitionStep vmAfterMorph "먹었어요" []).1 = some mokDef := by
  refine ⟨?_, by decide, by decide, by decide, by decide⟩
  exact VMReachable.step
    (VMReachable.step
      (VMReachable.step VMReachable.init
        (VMStep.load VMState.init "book.canvas" [mokDef]))
      (VMStep.rebuild vmLoaded))
    (VMStep.morph vmRebuilt "먹었어요" "먹다" [] (by decide))

/-- C2 (amended): `rebuildCache` marks the cache valid only with both
caches fully populated with exactly the same word set, and in every
reachable vocabulary-manager state with a valid cache every
`allWordsCache` word is a key of `wordDefinitionCache`; the converse
inclusion, however, can fail after the asynchronous morphology
callback, which adds a surface-form key to `wordDefinitionCache`
without touching `allWordsCache`. -/
theorem rebuildCache_cache_coherence :
    (∀ s : VMState, (rebuildCache s).cacheValid = true ∧
       ∀ w, w ∈ (rebuildCache s).allWordsCache ↔
         (alGet (rebuildCache s).wordDefinitionCache w).isSome = true) ∧
    (∀ s : VMState, VMReachable s → s.cacheValid = true →
       ∀ w ∈ s.allWordsCache, (alGet s.wordDefinitionCache w).isSome = true) :=
  ⟨rebuildCache_exact, fun _ hs => vmReachable_cache_inv hs⟩

/-- Witness for C2 amended: rebuilding after loading one book yields a
valid cache with 먹다 in both caches, and in the reachable state
`vmRebuilt` the word 먹다 of `allWordsCache` is a cache key. -/
theorem rebuildCache_cache_coherence_witness :
    ((rebuildCache vmLoaded).cacheValid = true ∧
     ("먹다" ∈ (rebuildCache vmLoaded).allWordsCache ↔
       (alGet (rebuildCache vmLoaded).wordDefinitionCache "먹다").isSome = true)) ∧
    (alGet vmRebuilt.wordDefinitionCache "먹다").isSome = true :=
  ⟨⟨(rebuildCache_cache_coherence.1 vmLoaded).1,
    (rebuildCache_cache_coherence.1 vmLoaded).2 "먹다"⟩,
   rebuildCache_cache_coherence.2 vmRebuilt
     (VMReachable.step
       (VMReachable.step VMReachable.init
         (VMStep.load VMState.init "book.canvas" [mokDef]))
       (VMStep.rebuild vmLoaded))
     (by decide) "먹다" (by decide)⟩

end HiWords
